import Mathlib

/-!
# bitbucket-cascade-merge: the cascade of branches and its version ordering

A shallow embedding of `models.go`, `main.go` and `handler.go`.

* Go `string` values are `String`; where the code inspects their bytes the
  functions work on the `List Char` underneath (every byte the code looks for
  is ASCII).
* Go `int` is a 64-bit two's-complement integer: the field `Cascade.Current`
  is an `Int` and every addition goes through `wrapInt`.
* A run-time panic (index out of range, slice bounds out of range) is `none`.
* The functions of the Go standard library (`strings`, `strconv`, `sort`) and of
  `github.com/hashicorp/go-version` that the code calls are modelled after
  their Go sources, function by function, under their Go names.
-/

namespace BitbucketCascade

/-! ## Machine integers -/

/-- Two's-complement wrap-around of a mathematical integer into Go's `int` (64 bits). -/
def wrapInt (x : Int) : Int := (x + 2 ^ 63) % 2 ^ 64 - 2 ^ 63

/-- Largest length a Go slice can have (`math.MaxInt64`). -/
def maxInt : Int := 2 ^ 63 - 1

/-! ## `Cascade` (models.go, lines 99-151) -/

/-- Go: `type Cascade struct { Branches []string; Current int }`. -/
structure Cascade where
  Branches : List String
  Current : Int
deriving DecidableEq, Repr

/-- Go: `s[i]` for `i int`; `none` is the index-out-of-range panic. -/
def index (l : List String) (i : Int) : Option String :=
  if 0 ≤ i then l[i.toNat]? else none

/-- Go: `func (c *Cascade) Next() string`. Returns the result together with the
cascade after the call; `none` is a panic. -/
def Cascade.Next (c : Cascade) : Option (String × Cascade) :=
  if (c.Branches.length : Int) > wrapInt (c.Current + 1) then
    let c1 : Cascade := { c with Current := wrapInt (c.Current + 1) }
    match index c1.Branches c1.Current with
    | some b => some (b, c1)
    | none => none
  else
    some ("", c)

/-- Calls `Next` `k` times in a row and collects the returned names in call order. -/
def Cascade.runNext : Nat → Cascade → Option (List String × Cascade)
  | 0, c => some ([], c)
  | k + 1, c =>
    match c.Next with
    | none => none
    | some (b, c1) =>
      match Cascade.runNext k c1 with
      | none => none
      | some (bs, c2) => some (b :: bs, c2)

/-- Go: `func (c *Cascade) Append(branchName string)`. -/
def Cascade.Append (c : Cascade) (branchName : String) : Cascade :=
  if c.Branches.any (fun b => b == branchName) then c
  else { c with Branches := c.Branches ++ [branchName] }

/-- Go: `s[1:]`; `none` is the slice-bounds panic on an empty slice. -/
def sliceFrom1 : List String → Option (List String)
  | [] => none
  | _ :: rest => some rest

/-- The loop of `Slice`: the first list is what `range c.Branches` still has to
visit (the range expression is evaluated once, before the loop), the second is
the field `c.Branches` as the body keeps reassigning it. -/
def Cascade.sliceLoop (startBranch : String) : List String → List String → Option (List String)
  | [], cur => some cur
  | branch :: rest, cur =>
    if branch != startBranch then
      match sliceFrom1 cur with
      | none => none
      | some cur1 => Cascade.sliceLoop startBranch rest cur1
    else
      some cur

/-- Go: `func (c *Cascade) Slice(startBranch string)`. -/
def Cascade.Slice (c : Cascade) (startBranch : String) : Option Cascade :=
  match Cascade.sliceLoop startBranch c.Branches c.Branches with
  | none => none
  | some bs => some { c with Branches := bs }

/-! ## The Go standard library functions the code calls -/

/-- Go: `strings.ReplaceAll(s, old, new)` for a non-empty `old`: the
non-overlapping occurrences of `old` are replaced from left to right. The
counter is the number of bytes of a matched occurrence still to be skipped. -/
def replaceAllAux (old new : List Char) : Nat → List Char → List Char
  | _, [] => []
  | skip + 1, _ :: cs => replaceAllAux old new skip cs
  | 0, c :: cs =>
    if old.isPrefixOf (c :: cs) then new ++ replaceAllAux old new (old.length - 1) cs
    else c :: replaceAllAux old new 0 cs

/-- Go: `strings.ReplaceAll(s, old, new)`, `old` non-empty. -/
def ReplaceAll (s old new : List Char) : List Char := replaceAllAux old new 0 s

/-- Go: `strings.Split(s, sep)` for a one-byte separator: never empty, `n`
separators give `n + 1` parts. -/
def Split (sep : Char) : List Char → List (List Char)
  | [] => [[]]
  | c :: cs =>
    if c = sep then [] :: Split sep cs
    else
      match Split sep cs with
      | [] => [[c]]
      | p :: ps => (c :: p) :: ps

/-- Value of a string of decimal digits. -/
def digitsValue (s : List Char) : Nat := s.foldl (fun n c => 10 * n + (c.toNat - 48)) 0

/-- Go: `strconv.ParseInt(s, 10, 64)`: the returned value and whether `err == nil`.
A syntax error returns 0, a range error the nearest bound. -/
def ParseInt (s : List Char) : Int × Bool :=
  let neg : Bool := match s with
    | '-' :: _ => true
    | _ => false
  let digits : List Char := match s with
    | '+' :: r => r
    | '-' :: r => r
    | _ => s
  if digits.isEmpty || !digits.all Char.isDigit then (0, false)
  else if !neg then
    if digitsValue digits ≥ 2 ^ 63 then (2 ^ 63 - 1, false) else ((digitsValue digits : Int), true)
  else
    if digitsValue digits > 2 ^ 63 then (-(2 ^ 63), false) else (-(digitsValue digits : Int), true)

/-- Go: the string comparison `a > b` (byte-wise lexicographic). -/
def strGt : List Char → List Char → Bool
  | [], _ => false
  | _ :: _, [] => true
  | a :: as, b :: bs => if a.toNat > b.toNat then true else if a.toNat < b.toNat then false else strGt as bs

/-! ## `github.com/hashicorp/go-version` (version.go), as far as the code uses it -/

/-- Go: `type Version struct { metadata, pre string; segments []int64; si int; original string }`. -/
structure Version where
  metadata : String
  pre : String
  segments : List Int
  si : Nat
  original : String
deriving DecidableEq, Repr

/-- The character class `[0-9A-Za-z\-~]` of the version regular expressions. -/
def isIdentChar (c : Char) : Bool := c.isDigit || c.isAlpha || c == '-' || c == '~'

/-- Matches `[0-9A-Za-z\-~]+(\.[0-9A-Za-z\-~]+)*`: dot-separated, non-empty identifiers. -/
def validIdents (p : List Char) : Bool :=
  (Split '.' p).all (fun part => !part.isEmpty && part.all isIdentChar)

/-- Matches `[0-9]+(\.[0-9]+)*`: dot-separated, non-empty runs of digits. -/
def validSegments (p : List Char) : Bool :=
  (Split '.' p).all (fun part => !part.isEmpty && part.all Char.isDigit)

/-- The prerelease captured by the third group of the regular expressions (what
`matches[7]`, else `matches[4]` holds) from the text between the segments and
the first `+`. `SemverRegexpRaw` requires the separating hyphen;
`VersionRegexpRaw` has `-?` before a prerelease that starts with `[A-Za-z\-~]`. -/
def matchPre (semver : Bool) (preSec : List Char) : Option (List Char) :=
  match preSec with
  | [] => some []
  | '-' :: p =>
    if validIdents p then some p
    else if !semver && validIdents preSec then some preSec
    else none
  | c :: _ =>
    if !semver && (c.isAlpha || c == '~') && validIdents preSec then some preSec
    else none

/-- The build metadata captured by `(\+([0-9A-Za-z\-~]+(\.[0-9A-Za-z\-~]+)*))?`
from the text starting at the first `+`. -/
def matchMetadata (metaSec : List Char) : Option (List Char) :=
  match metaSec with
  | [] => some []
  | _ :: m => if validIdents m then some m else none

/-- Go: `pattern.FindStringSubmatch(v)` for the anchored `semverRegexp`
(`semver = true`) or `versionRegexp`: the groups `matches[1]` (segments), the
prerelease and `matches[10]` (metadata), or `none` when `v` does not match.
The text is `v?`, then the longest run of digits and dots, then the prerelease
up to the first `+`, then the metadata. -/
def findSubmatch (semver : Bool) (v : List Char) : Option (List Char × List Char × List Char) :=
  let s : List Char := match v with
    | 'v' :: r => r
    | _ => v
  let segs := s.takeWhile (fun c => c.isDigit || c == '.')
  let rest := s.dropWhile (fun c => c.isDigit || c == '.')
  if !validSegments segs then none
  else
    match matchPre semver (rest.takeWhile (fun c => c != '+')),
          matchMetadata (rest.dropWhile (fun c => c != '+')) with
    | some pre, some metadata => some (segs, pre, metadata)
    | _, _ => none

/-- The loop of `newVersion` that converts `strings.Split(matches[1], ".")` with
`strconv.ParseInt(str, 10, 64)`; `none` when one of them does not fit 64 bits. -/
def parseSegments : List (List Char) → Option (List Int)
  | [] => some []
  | str :: strs =>
    if (ParseInt str).2 then
      match parseSegments strs with
      | some vals => some ((ParseInt str).1 :: vals)
      | none => none
    else none

/-- Go: `func newVersion(v string, pattern *regexp.Regexp) (*Version, error)`. -/
def newVersion (semver : Bool) (v : String) : Except String Version :=
  match findSubmatch semver v.data with
  | none => .error ("Malformed version: " ++ v)
  | some (segs, pre, metadata) =>
    match parseSegments (Split '.' segs) with
    | none => .error "Error parsing version"
    | some segments =>
      .ok { metadata := String.mk metadata
            pre := String.mk pre
            segments := segments ++ List.replicate (3 - segments.length) 0
            si := (Split '.' segs).length
            original := v }

/-- Go: `version.NewVersion(v)`. -/
def NewVersion (v : String) : Except String Version := newVersion false v

/-- Go: `version.NewSemver(v)`. -/
def NewSemver (v : String) : Except String Version := newVersion true v

/-- Go: `func (v *Version) Original() string`. -/
def Version.Original (v : Version) : String := v.original

/-- Go: `func allZero(segs []int64) bool`. -/
def allZero (segs : List Int) : Bool := segs.all (fun s => s == 0)

/-- The segment loop of `Compare` ("lopsided or jagged comparison"): the first
difference decides; when one list runs out the rest of the other decides. -/
def compareSegments : List Int → List Int → Int
  | [], [] => 0
  | [], r :: o => if !allZero (r :: o) then -1 else 0
  | l :: s, [] => if !allZero (l :: s) then 1 else 0
  | l :: s, r :: o => if l == r then compareSegments s o else if l < r then -1 else 1

/-- Go: `func comparePart(preSelf string, preOther string) int`. -/
def comparePart (preSelf preOther : List Char) : Int :=
  if preSelf = preOther then 0
  else
    let selfInt := (ParseInt preSelf).1
    let selfNumeric := (ParseInt preSelf).2
    let otherInt := (ParseInt preOther).1
    let otherNumeric := (ParseInt preOther).2
    if preSelf.isEmpty then
      if otherNumeric then -1 else 1
    else if preOther.isEmpty then
      if selfNumeric then 1 else -1
    else if selfNumeric && !otherNumeric then -1
    else if !selfNumeric && otherNumeric then 1
    else if !selfNumeric && !otherNumeric && strGt preSelf preOther then 1
    else if selfInt > otherInt then 1
    else -1

/-- The loop of `comparePrereleases` over the part index: a side that has run
out of parts contributes the empty string; the first non-zero result is returned. -/
def comparePartsLoop : Nat → List (List Char) → List (List Char) → Int
  | 0, _, _ => 0
  | n + 1, self, other =>
    if comparePart (self.headD []) (other.headD []) != 0 then
      comparePart (self.headD []) (other.headD [])
    else comparePartsLoop n self.tail other.tail

/-- Go: `func comparePrereleases(v string, other string) int`. -/
def comparePrereleases (v other : String) : Int :=
  if v = other then 0
  else
    comparePartsLoop (max (Split '.' v.data).length (Split '.' other.data).length)
      (Split '.' v.data) (Split '.' other.data)

/-- Go: `v.String() == other.String()`, the quick check that opens `Compare`.
`String()` writes the segments joined by dots, then `-` and the prerelease when
there is one, then `+` and the metadata when there is one; neither part can
hold the separator that ends it, so two versions print alike exactly when
these three fields agree. -/
def Version.sameString (v other : Version) : Bool :=
  v.segments == other.segments && v.pre == other.pre && v.metadata == other.metadata

/-- Go: `func (v *Version) Compare(other *Version) int`. -/
def Version.Compare (v other : Version) : Int :=
  if v.sameString other then 0
  else if v.segments = other.segments then
    if v.pre = "" ∧ other.pre = "" then 0
    else if v.pre = "" then 1
    else if other.pre = "" then -1
    else comparePrereleases v.pre other.pre
  else compareSegments v.segments other.segments

/-- Go: `func (v *Version) LessThan(o *Version) bool`. -/
def Version.LessThan (v o : Version) : Bool := v.Compare o < 0

/-- Go: `func (v *Version) Equal(o *Version) bool`. -/
def Version.Equal (v o : Version) : Bool := v.Compare o == 0

/-- Go: `func insertionSort(data Interface, a, b int)` of package `sort`, one
round of the inner loop: the new element moves left past every neighbour it is
`less` than. The sorted part is held back to front (its last element first). -/
def insertLeft {α : Type} (less : α → α → Bool) (x : α) : List α → List α
  | [] => [x]
  | p :: ps => if less x p then p :: insertLeft less x ps else x :: p :: ps

/-- Go: `sort.Sort(data)`, modelled by the insertion sort of package `sort`:
that is what `Sort` executes on a short slice (at most 12 elements; before Go
1.19 at most 6, a slice of 7 to 12 first getting one pass of swaps at distance
6). On a longer slice `Sort` runs a quicksort variant, which is documented to
put the data in ascending order as determined by `Less` and not to be stable;
there this model agrees with it up to the order of elements that compare equal. -/
def sortSort {α : Type} (less : α → α → Bool) (data : List α) : List α :=
  (data.foldl (fun sorted x => insertLeft less x sorted) []).reverse

/-! ## Version keys of branch names (models.go, lines 153-202) -/

/-- Go: `func SemVersion(branch string) (*version.Version, error)`. -/
def SemVersion (branch : String) : Except String Version :=
  let parts := Split '/' (ReplaceAll branch.data "version_".data [])
  if parts.length > 0 then
    match NewSemver (String.mk (parts.getLastD [])) with
    | .ok semver => .ok semver
    | .error err => .error err
  else NewSemver branch

/-- The version `NewVersion("0")` builds. -/
def zeroVersion : Version :=
  { metadata := "", pre := "", segments := [0, 0, 0], si := 1, original := "0" }

/-- The last two statements of `extractSemVersion`: `semver, _ =
version.NewVersion("0"); return semver`. The error is discarded; the call
succeeds, so the nil pointer a failure would leave is never returned. -/
def extractSemVersionZero : Version :=
  match NewVersion "0" with
  | .ok semver => semver
  | .error _ => zeroVersion

/-- Go: `func extractSemVersion(branch string) *version.Version`. -/
def extractSemVersion (branch : String) : Version :=
  match SemVersion branch with
  | .ok semver => semver
  | .error _ =>
    if branch = "devel" then
      match NewVersion "99999999" with
      | .ok semver => semver
      | .error _ => extractSemVersionZero
    else extractSemVersionZero

/-- Go: `func (b BySemVersion) Less(i, j int) bool`, on the two names at `i` and `j`. -/
def BySemVersion.Less (bi bj : String) : Bool :=
  (extractSemVersion bi).LessThan (extractSemVersion bj)

/-- Go: `func (c *Cascade) AppendSemVer(branchName string)`. -/
def Cascade.AppendSemVer (c : Cascade) (branchName : String) : Cascade :=
  if c.Branches.any (fun b => b == branchName) then c
  else
    let semVersion := extractSemVersion branchName
    if semVersion.Original != "0" then
      { c with Branches := sortSort BySemVersion.Less (c.Branches ++ [branchName]) }
    else c

/-! ## Events and the worker (models.go, lines 10-107; main.go, lines 31-96)

Pointers are `Option`s: `none` is nil. The collaborators of the worker that
are not part of these files (the Bitbucket client, the git client and the
environment) are a record of functions; the worker returns the calls it made
to them, in order. -/

/-- Go: `type Link struct`. -/
structure Link where
  Name : String
  Href : String
deriving DecidableEq, Repr

/-- Go: `type Links struct`; `Clone = none` is the nil slice, and an entry of
`Clone` is a `*Link`, `none` when nil. -/
structure Links where
  Self : Option Link
  Clone : Option (List (Option Link))
deriving DecidableEq, Repr

/-- Go: `type Project struct`. -/
structure Project where
  Name : String
  Links : List (String × Link)
deriving DecidableEq, Repr

/-- Go: `type Owner struct`. -/
structure Owner where
  UUID : String
deriving DecidableEq, Repr

/-- Go: `type User struct`. -/
structure User where
  UUID : String
  Links : List (String × Link)
deriving DecidableEq, Repr

/-- Go: `type Author struct`. -/
structure Author where
  Raw : String
  User : Option User
  Name : String
  Email : String
deriving DecidableEq, Repr

/-- Go: `type Repository struct`. -/
structure Repository where
  Uuid : String
  Name : String
  Links : Links
  Project : Option Project
  Owner : Option Owner
deriving DecidableEq, Repr

/-- Go: `type PullRequestBranch struct`. -/
structure PullRequestBranch where
  Name : String
deriving DecidableEq, Repr

/-- Go: `type PullRequestCommit struct`. -/
structure PullRequestCommit where
  Hash : String
  Links : List (String × Link)
deriving DecidableEq, Repr

/-- Go: `type PullRequestRepository struct`. -/
structure PullRequestRepository where
  Name : String
  Fullname : String
  Uuid : String
  Links : List (String × Link)
deriving DecidableEq, Repr

/-- Go: `type PullRequestRef struct`. -/
structure PullRequestRef where
  Branch : Option PullRequestBranch
  Commit : Option PullRequestCommit
  Repository : Option PullRequestRepository
deriving DecidableEq, Repr

/-- Go: `type PullRequest struct`; `State` is the `PullRequestState` string. -/
structure PullRequest where
  Id : Int
  Title : String
  Description : String
  State : String
  Author : Option Author
  Source : Option PullRequestRef
  Destination : Option PullRequestRef
deriving DecidableEq, Repr

/-- Go: `const Merged PullRequestState = "MERGED"`. -/
def Merged : String := "MERGED"

/-- Go: `type PullRequestEvent struct`. -/
structure PullRequestEvent where
  Repository : Option Repository
  Actor : Option User
  PullRequest : Option PullRequest
deriving DecidableEq, Repr

/-- Go: `type CascadeMergeState struct { Source string; Target string; error }`;
`err = none` is a nil embedded error. -/
structure CascadeMergeState where
  Source : String
  Target : String
  err : Option String
deriving DecidableEq, Repr

/-- Go: `type CascadeOptions struct`. -/
structure CascadeOptions where
  DevelopmentName : String
  ReleasePrefix : String
deriving DecidableEq, Repr

/-- The `ClientOptions` literal the worker passes to `NewClient`. -/
structure ClientOptions where
  Path : String
  URL : String
  Username : String
  Password : String
deriving DecidableEq, Repr

/-- One call of the worker to a collaborator, with its arguments; `CascadeMerge`
also records its receiver, the client pointer `NewClient` returned. -/
inductive Call where
  | GetCloneURL (owner repo protocol : String)
  | NewClient (options : ClientOptions)
  | GetCascadeOptions (owner repo : String)
  | CascadeMerge (client : Option ClientOptions) (branchName : String) (options : CascadeOptions)
  | CreatePullRequest (title description source target : String)
deriving DecidableEq, Repr

/-- What the collaborators answer while one event is processed. `newClient`
returns the client pointer (here the options it was built from, `none` for nil)
and the error; `cascadeMerge` receives that pointer. The error returned by
`CreatePullRequest` only selects the line that is logged, so it is not part of
the record. -/
structure Collaborators where
  username : String
  password : String
  tempDir : String
  getCloneURL : String → String → String → Except String String
  newClient : ClientOptions → Option ClientOptions × Option String
  getCascadeOptions : String → String → Except String CascadeOptions
  cascadeMerge : Option ClientOptions → String → CascadeOptions → Option CascadeMergeState

/-- What a piece of the worker did: the calls made to the collaborators, in
order, and whether it ended in a nil-pointer panic. -/
structure Run where
  calls : List Call
  panicked : Bool
deriving DecidableEq, Repr

/-- Go: `strings.HasPrefix(s, p)`. -/
def HasPrefix (s p : String) : Bool := p.data.isPrefixOf s.data

/-- The loop body of `worker` after `CascadeMerge` returned (main.go, lines
76-94). Calling `state.Error()` on a state whose embedded error is nil panics. -/
def workerAfterMerge (state : Option CascadeMergeState) : Run :=
  match state with
  | none => { calls := [], panicked := false }
  | some st =>
    if st.Source != "" && st.Target != "" then
      { calls := [Call.CreatePullRequest "Automatic merge failure"
          "There was a merge conflict automatically merging this branch" st.Source st.Target],
        panicked := false }
    else
      match st.err with
      | some _ => { calls := [], panicked := false }
      | none => { calls := [], panicked := true }

/-- The loop body of `worker` for one event (main.go, lines 34-94). The first
statement, the log line, already dereferences the repository, the pull request
and both branch references; the owner is dereferenced right after, before any
call is made. -/
def processEvent (w : Collaborators) (e : PullRequestEvent) : Run :=
  match e.Repository, e.PullRequest with
  | some repository, some pullRequest =>
    match pullRequest.Source, pullRequest.Destination with
    | some source, some destination =>
      match source.Branch, destination.Branch, repository.Owner with
      | some _, some destinationBranch, some owner =>
        match w.getCloneURL owner.UUID repository.Name "https" with
        | .error _ =>
          { calls := [Call.GetCloneURL owner.UUID repository.Name "https"], panicked := false }
        | .ok url =>
          let clientOptions : ClientOptions :=
            { Path := w.tempDir ++ "/" ++ repository.Uuid, URL := url,
              Username := w.username, Password := w.password }
          let c := (w.newClient clientOptions).1
          match w.getCascadeOptions owner.UUID repository.Name with
          | .error _ =>
            { calls := [Call.GetCloneURL owner.UUID repository.Name "https",
                Call.NewClient clientOptions,
                Call.GetCascadeOptions owner.UUID repository.Name],
              panicked := false }
          | .ok opts =>
            if HasPrefix destinationBranch.Name opts.DevelopmentName
                && ! HasPrefix destinationBranch.Name opts.ReleasePrefix then
              { calls := [Call.GetCloneURL owner.UUID repository.Name "https",
                  Call.NewClient clientOptions,
                  Call.GetCascadeOptions owner.UUID repository.Name],
                panicked := false }
            else
              let after := workerAfterMerge (w.cascadeMerge c destinationBranch.Name opts)
              { calls := [Call.GetCloneURL owner.UUID repository.Name "https",
                  Call.NewClient clientOptions,
                  Call.GetCascadeOptions owner.UUID repository.Name,
                  Call.CascadeMerge c destinationBranch.Name opts] ++ after.calls,
                panicked := after.panicked }
      | _, _, _ => { calls := [], panicked := true }
    | _, _ => { calls := [], panicked := true }
  | _, _ => { calls := [], panicked := true }

/-- Go: `func worker(event <-chan PullRequestEvent)`: the queued events are
processed one after the other, each with the answers its collaborators give; a
panic ends the worker. -/
def worker : List (Collaborators × PullRequestEvent) → Run
  | [] => { calls := [], panicked := false }
  | (w, e) :: queue =>
    if (processEvent w e).panicked then processEvent w e
    else
      { calls := (processEvent w e).calls ++ (worker queue).calls,
        panicked := (worker queue).panicked }

/-- The inner loop of `URL`, over the variadic `protocols`, for one clone link:
`some (some href)` is `return cloneLink.Href, nil`, `some none` is the loop
running out, `none` is the nil dereference of `cloneLink`. -/
def Repository.urlProtocols (cloneLink : Option Link) : List String → Option (Option String)
  | [] => some none
  | p :: protocols =>
    match cloneLink with
    | none => none
    | some link =>
      if p.length == 0 || p == link.Name then some (some link.Href)
      else Repository.urlProtocols cloneLink protocols

/-- The outer loop of `URL`, over the clone links, and the final `return`. -/
def Repository.urlLinks (protocols : List String) :
    List (Option Link) → Option (String × Option String)
  | [] => some ("", some "no matching clone link")
  | cloneLink :: links =>
    match Repository.urlProtocols cloneLink protocols with
    | none => none
    | some (some href) => some (href, none)
    | some none => Repository.urlLinks protocols links

/-- Go: `func (r *Repository) URL(protocols ...string) (string, error)`: the
string and the error (`none` for nil); the outer `none` is a panic. -/
def Repository.URL (r : Repository) (protocols : List String) : Option (String × Option String) :=
  match r.Links.Clone with
  | none => some ("", some "missing clone link")
  | some links => Repository.urlLinks protocols links

/-! ## The webhook handler (handler.go; main.go, lines 13-22)

The channel is a bounded FIFO queue: the non-blocking send of `select` succeeds
exactly when the buffer has room. -/

/-- Go: `http.StatusCreated`. -/
def StatusCreated : Nat := 201

/-- Go: `http.StatusBadRequest`. -/
def StatusBadRequest : Nat := 400

/-- Go: `http.StatusForbidden`. -/
def StatusForbidden : Nat := 403

/-- Go: `http.StatusUnprocessableEntity`. -/
def StatusUnprocessableEntity : Nat := 422

/-- Go: `http.StatusTooManyRequests`. -/
def StatusTooManyRequests : Nat := 429

/-- What the handler reads of a request: `request.URL.Query().Get("token")` and
what `json.NewDecoder(request.Body).Decode(&event)` leaves, the error (`none`
for nil) and the variable `event`. -/
structure Request where
  token : String
  decodeErr : Option String
  event : PullRequestEvent
deriving DecidableEq, Repr

/-- Go: `make(chan PullRequestEvent, capacity)` with the events it buffers,
oldest first. -/
structure Channel where
  capacity : Nat
  queue : List PullRequestEvent
deriving DecidableEq, Repr

/-- Go: the handler function `EventHandler.Handle()` returns: the status written
with `WriteHeader` and the channel after the request. -/
def Handle (channel : Channel) (request : Request) : Nat × Channel :=
  match request.decodeErr, request.event.PullRequest with
  | none, some pullRequest =>
    if pullRequest.State != Merged then (StatusUnprocessableEntity, channel)
    else if channel.queue.length < channel.capacity then
      (StatusCreated, { channel with queue := channel.queue ++ [request.event] })
    else (StatusTooManyRequests, channel)
  | _, _ => (StatusBadRequest, channel)

/-- Go: the handler function `EventHandler.CheckToken(token, next)` returns. -/
def CheckToken (token : String) (next : Channel → Request → Nat × Channel)
    (channel : Channel) (request : Request) : Nat × Channel :=
  if token != request.token then (StatusForbidden, channel)
  else next channel request

/-- Go: `events := make(chan PullRequestEvent, 100)` in `main`. -/
def mainChannel : Channel := { capacity := 100, queue := [] }

/-! ## Names used to state the properties -/

/-- The last `/`-separated segment of a branch name once `version_` is removed. -/
def lastSegment (branch : String) : String :=
  String.mk ((Split '/' (ReplaceAll branch.data "version_".data [])).getLastD [])

/-- The version `NewVersion("99999999")` builds, the key of the branch "devel". -/
def develVersion : Version :=
  { metadata := "", pre := "", segments := [99999999, 0, 0], si := 1, original := "99999999" }

/-- The rule of the specification for the version key of a branch name: the
semantic version parsed from the last `/`-separated segment once `version_` is
removed, when that segment parses; else 99999999 for exactly "devel"; else 0. -/
def extractVersionSpec (branch : String) : Version :=
  match NewSemver (lastSegment branch) with
  | .ok semver => semver
  | .error _ => if branch = "devel" then develVersion else zeroVersion

/-- The text `M.m.p` made of three runs of digits. -/
def dotted (dM dm dp : List Char) : List Char := dM ++ '.' :: (dm ++ '.' :: dp)

/-- A non-empty run of decimal digits. -/
def isNumber (d : List Char) : Prop := d ≠ [] ∧ d.all Char.isDigit = true

/-- The text `M.m.p` of three natural numbers in decimal. -/
def versionText (M m p : Nat) : String := toString M ++ "." ++ toString m ++ "." ++ toString p

/-- Collaborators of the end-to-end scenario: every lookup succeeds and
`CascadeMerge` reports the conflict of merging "release/3" into "devel". -/
def conflictCollaborators : Collaborators :=
  { username := "user"
    password := "secret"
    tempDir := "/tmp"
    getCloneURL := fun _ _ _ => .ok "https://git.example/winterfell.git"
    newClient := fun options => (some options, none)
    getCascadeOptions := fun _ _ => .ok { DevelopmentName := "devel", ReleasePrefix := "release/" }
    cascadeMerge := fun _ _ _ =>
      some { Source := "release/3", Target := "devel", err := some "merge conflict" } }

/-- The `ClientOptions` literal the worker passes to `NewClient` (main.go, lines 48-55). -/
def workerClientOptions (w : Collaborators) (repository : Repository) (url : String) :
    ClientOptions :=
  { Path := w.tempDir ++ "/" ++ repository.Uuid, URL := url,
    Username := w.username, Password := w.password }

/-- Whether a clone link satisfies the test of `URL` for one of the protocols
given: some protocol is empty or equal to the name of the link. -/
def linkMatches (protocols : List String) (link : Link) : Bool :=
  protocols.any (fun p => p.length == 0 || p == link.Name)

/-- A repository with the given clone links and nothing else. -/
def repositoryWithClone (clone : Option (List (Option Link))) : Repository :=
  { Uuid := "", Name := "", Links := { Self := none, Clone := clone },
    Project := none, Owner := none }

/-- A merged pull request of the end-to-end scenario into the given destination. -/
def mergedInto (destination : String) : PullRequestEvent :=
  { Repository := some
      { Uuid := "repo-1", Name := "winterfell", Links := { Self := none, Clone := none },
        Project := none, Owner := some { UUID := "owner-1" } }
    Actor := none
    PullRequest := some
      { Id := 1, Title := "fix", Description := "", State := "MERGED", Author := none
        Source := some { Branch := some { Name := "bugfix/1" }, Commit := none, Repository := none }
        Destination := some
          { Branch := some { Name := destination }, Commit := none, Repository := none } } }

/-- The `ClientOptions` the worker builds in the end-to-end scenario. -/
def scenarioClientOptions : ClientOptions :=
  { Path := "/tmp/repo-1", URL := "https://git.example/winterfell.git",
    Username := "user", Password := "secret" }

/-- The cascade options of the end-to-end scenario. -/
def scenarioOptions : CascadeOptions := { DevelopmentName := "devel", ReleasePrefix := "release/" }

/-- Collaborators whose clone-URL lookup fails. -/
def noCloneURLCollaborators : Collaborators :=
  { conflictCollaborators with getCloneURL := fun _ _ _ => .error "404" }

/-- Collaborators whose `NewClient` fails: it returns a nil client and an error;
`CascadeMerge` then finds nothing to merge. -/
def noClientCollaborators : Collaborators :=
  { conflictCollaborators with
    newClient := fun _ => (none, some "cannot clone")
    cascadeMerge := fun _ _ _ => none }

/-- What decoding the body `{"pullrequest": {"state": "MERGED"}}` leaves in
`event`: a pull request in state MERGED and nothing else. -/
def bareMergedEvent : PullRequestEvent :=
  { Repository := none
    Actor := none
    PullRequest := some
      { Id := 0, Title := "", Description := "", State := "MERGED", Author := none
        Source := none, Destination := none } }

/-! ## Lemmas on the machine integers and on `Slice` -/

theorem wrapInt_of_inRange (x : Int) (h1 : -(2 ^ 63) ≤ x) (h2 : x < 2 ^ 63) : wrapInt x = x := by
  unfold wrapInt
  omega

theorem sliceLoop_self (s : String) (l : List String) :
    Cascade.sliceLoop s l l = some (l.dropWhile (fun b => b != s)) := by
  induction l with
  | nil => rfl
  | cons b rest ih =>
    by_cases h : b = s
    · simp [Cascade.sliceLoop, List.dropWhile, h]
    · have hbne : (b != s) = true := bne_iff_ne.mpr h
      simp [Cascade.sliceLoop, List.dropWhile, hbne, sliceFrom1, ih]

theorem Slice_eq_dropWhile (c : Cascade) (s : String) :
    c.Slice s = some { Branches := c.Branches.dropWhile (fun b => b != s), Current := c.Current } := by
  simp [Cascade.Slice, sliceLoop_self]

theorem dropWhile_ne_of_not_mem (s : String) (l : List String) (h : s ∉ l) :
    l.dropWhile (fun b => b != s) = [] := by
  induction l with
  | nil => rfl
  | cons b rest ih =>
    have hb : b ≠ s := fun e => h (by simp [e])
    have hr : s ∉ rest := fun e => h (by simp [e])
    have hbne : (b != s) = true := bne_iff_ne.mpr hb
    simp [List.dropWhile, hbne, ih hr]

theorem dropWhile_ne_append (s : String) (pre post : List String) (h : s ∉ pre) :
    (pre ++ s :: post).dropWhile (fun b => b != s) = s :: post := by
  induction pre with
  | nil => simp [List.dropWhile]
  | cons b rest ih =>
    have hb : b ≠ s := fun e => h (by simp [e])
    have hr : s ∉ rest := fun e => h (by simp [e])
    have hbne : (b != s) = true := bne_iff_ne.mpr hb
    simp [List.dropWhile, hbne, ih hr]

/-! ## Lemmas on `sort.Sort` and on the membership test of the append functions -/

theorem insertLeft_perm {α : Type} (less : α → α → Bool) (x : α) (l : List α) :
    (insertLeft less x l).Perm (x :: l) := by
  induction l with
  | nil => exact List.Perm.refl _
  | cons p ps ih =>
    unfold insertLeft
    split
    · exact ((List.Perm.cons p ih).trans (List.Perm.swap x p ps))
    · exact List.Perm.refl _

theorem foldl_insertLeft_perm {α : Type} (less : α → α → Bool) (l : List α) :
    ∀ acc : List α, (l.foldl (fun sorted x => insertLeft less x sorted) acc).Perm (l ++ acc) := by
  induction l with
  | nil => intro acc; exact List.Perm.refl _
  | cons x xs ih =>
    intro acc
    simp only [List.foldl_cons]
    refine (ih (insertLeft less x acc)).trans ?_
    refine (List.Perm.append_left xs (insertLeft_perm less x acc)).trans ?_
    exact List.perm_middle

theorem sortSort_perm {α : Type} (less : α → α → Bool) (l : List α) :
    (sortSort less l).Perm l := by
  unfold sortSort
  refine (List.reverse_perm _).trans ?_
  have h := foldl_insertLeft_perm less l []
  rw [List.append_nil] at h
  exact h

theorem any_beq_iff_mem (l : List String) (b : String) :
    l.any (fun x => x == b) = true ↔ b ∈ l := by
  simp [List.any_eq_true]

theorem Append_of_mem (c : Cascade) (b : String) (h : b ∈ c.Branches) : c.Append b = c := by
  simp [Cascade.Append, h]

theorem Append_of_not_mem (c : Cascade) (b : String) (h : b ∉ c.Branches) :
    c.Append b = { Branches := c.Branches ++ [b], Current := c.Current } := by
  simp [Cascade.Append, h]

theorem AppendSemVer_of_mem (c : Cascade) (b : String) (h : b ∈ c.Branches) :
    c.AppendSemVer b = c := by
  simp [Cascade.AppendSemVer, h]

theorem AppendSemVer_of_not_mem (c : Cascade) (b : String) (h : b ∉ c.Branches) :
    c.AppendSemVer b =
      if (extractSemVersion b).Original ≠ "0" then
        { Branches := sortSort BySemVersion.Less (c.Branches ++ [b]), Current := c.Current }
      else c := by
  simp [Cascade.AppendSemVer, h]

theorem AppendSemVer_perm_or_same (c : Cascade) (b : String) :
    c.AppendSemVer b = c ∨
      ((c.AppendSemVer b).Branches.Perm (c.Branches ++ [b]) ∧ b ∉ c.Branches ∧
        (c.AppendSemVer b).Branches = sortSort BySemVersion.Less (c.Branches ++ [b])) := by
  by_cases h : b ∈ c.Branches
  · exact Or.inl (AppendSemVer_of_mem c b h)
  · rw [AppendSemVer_of_not_mem c b h]
    by_cases h0 : (extractSemVersion b).Original ≠ "0"
    · rw [if_pos h0]
      exact Or.inr ⟨sortSort_perm _ _, h, rfl⟩
    · rw [if_neg h0]
      exact Or.inl rfl

/-! ## Order lemmas: the segment comparison and `sort.Sort` -/

theorem compareSegments_self (a : List Int) : compareSegments a a = 0 := by
  induction a with
  | nil => rfl
  | cons l s ih => simp [compareSegments, ih]

theorem compareSegments_swap : ∀ a b : List Int, compareSegments b a = -compareSegments a b := by
  intro a
  induction a with
  | nil =>
    intro b
    cases b with
    | nil => rfl
    | cons r o => simp only [compareSegments]; split <;> simp
  | cons l s ih =>
    intro b
    cases b with
    | nil => simp only [compareSegments]; split <;> simp
    | cons r o =>
      simp only [compareSegments, beq_iff_eq]
      by_cases h : l = r
      · subst h; simp [ih o]
      · have h2 : r ≠ l := fun e => h e.symm
        simp only [h, h2, if_false]
        by_cases h3 : l < r
        · have : ¬ r < l := by omega
          simp [h3, this]
        · have : r < l := by omega
          simp [h3, this]

theorem compareSegments_nil_left (c : List Int) : compareSegments [] c ≤ 0 := by
  cases c with
  | nil => simp [compareSegments]
  | cons r o => simp only [compareSegments]; split <;> simp

theorem compareSegments_nil_right (a : List Int) :
    compareSegments a [] ≤ 0 ↔ allZero a = true := by
  cases a with
  | nil => simp [compareSegments, allZero]
  | cons l s =>
    simp only [compareSegments]
    cases h : allZero (l :: s) <;> simp

theorem compareSegments_of_allZero : ∀ a c : List Int, allZero a = true → (∀ x ∈ c, 0 ≤ x) →
    compareSegments a c ≤ 0 := by
  intro a
  induction a with
  | nil => intro c _ _; exact compareSegments_nil_left c
  | cons l s ih =>
    intro c ha hc
    cases c with
    | nil => exact (compareSegments_nil_right _).mpr ha
    | cons t u =>
      simp only [allZero, List.all_cons, Bool.and_eq_true, beq_iff_eq] at ha
      obtain ⟨hl, hs⟩ := ha
      subst hl
      have ht : 0 ≤ t := hc t (by simp)
      simp only [compareSegments, beq_iff_eq]
      by_cases h : t = 0
      · subst h
        simp only [if_true]
        exact ih u hs (fun x hx => hc x (by simp [hx]))
      · have h2 : ¬ (0 : Int) = t := fun e => h e.symm
        have : (0 : Int) < t := by omega
        simp [h2, this]

theorem allZero_of_compareSegments : ∀ a b : List Int, (∀ x ∈ a, 0 ≤ x) → allZero b = true →
    compareSegments a b ≤ 0 → allZero a = true := by
  intro a
  induction a with
  | nil => intro b _ _ _; rfl
  | cons l s ih =>
    intro b ha hb hab
    cases b with
    | nil => exact (compareSegments_nil_right _).mp hab
    | cons r o =>
      simp only [allZero, List.all_cons, Bool.and_eq_true, beq_iff_eq] at hb
      obtain ⟨hr, ho⟩ := hb
      subst hr
      have hl : 0 ≤ l := ha l (by simp)
      simp only [compareSegments, beq_iff_eq] at hab
      by_cases h : l = 0
      · simp only [h, if_true] at hab
        have := ih o (fun x hx => ha x (by simp [hx])) ho hab
        simp [allZero, h] at this ⊢
        exact this
      · have h3 : ¬ l < 0 := by omega
        simp [h, h3] at hab

theorem compareSegments_trans : ∀ a b c : List Int, (∀ x ∈ a, 0 ≤ x) → (∀ x ∈ b, 0 ≤ x) →
    (∀ x ∈ c, 0 ≤ x) → compareSegments a b ≤ 0 → compareSegments b c ≤ 0 →
    compareSegments a c ≤ 0 := by
  intro a
  induction a with
  | nil => intro b c _ _ _ _ _; exact compareSegments_nil_left c
  | cons l s ih =>
    intro b c ha hb hc hab hbc
    cases b with
    | nil =>
      have hz := (compareSegments_nil_right _).mp hab
      exact compareSegments_of_allZero _ c hz hc
    | cons r o =>
      cases c with
      | nil =>
        have hz := (compareSegments_nil_right _).mp hbc
        exact (compareSegments_nil_right _).mpr (allZero_of_compareSegments _ _ ha hz hab)
      | cons t u =>
        simp only [compareSegments, beq_iff_eq] at hab hbc ⊢
        by_cases h1 : l = r
        · subst h1
          simp only [if_true] at hab
          by_cases h2 : l = t
          · subst h2
            simp only [if_true] at hbc ⊢
            exact ih o u (fun x hx => ha x (by simp [hx])) (fun x hx => hb x (by simp [hx]))
              (fun x hx => hc x (by simp [hx])) hab hbc
          · simp only [h2, if_false] at hbc ⊢
            by_cases h3 : l < t
            · simp [h3]
            · simp [h3] at hbc
        · simp only [h1, if_false] at hab
          by_cases h4 : l < r
          · by_cases h2 : r = t
            · subst h2
              simp [h1, h4]
            · simp only [h2, if_false] at hbc
              by_cases h3 : r < t
              · have h5 : l ≠ t := by omega
                have h6 : l < t := by omega
                simp [h5, h6]
              · simp [h3] at hbc
          · simp [h4] at hab
theorem LessThan_of_no_pre (v o : Version) (hv : v.pre = "") (ho : o.pre = "") :
    v.LessThan o = true ↔ compareSegments v.segments o.segments < 0 := by
  unfold Version.LessThan Version.Compare Version.sameString
  by_cases hseg : v.segments = o.segments
  · simp [hseg, hv, ho, compareSegments_self]
  · simp [hseg]

theorem insertLeft_mem {α : Type} (less : α → α → Bool) (x : α) (l : List α) (z : α) :
    z ∈ insertLeft less x l ↔ z = x ∨ z ∈ l := by
  rw [(insertLeft_perm less x l).mem_iff]
  simp

theorem insertLeft_pairwise {α : Type} (less : α → α → Bool) (x : α) :
    ∀ acc : List α,
      (∀ y ∈ acc, less x y = true → less y x = false) →
      (∀ y ∈ acc, ∀ z ∈ acc, less x y = false → less y z = false → less x z = false) →
      acc.Pairwise (fun y z => less y z = false) →
      (insertLeft less x acc).Pairwise (fun y z => less y z = false) := by
  intro acc
  induction acc with
  | nil => intro _ _ _; simp [insertLeft]
  | cons p ps ih =>
    intro hasym htrans hacc
    rw [List.pairwise_cons] at hacc
    unfold insertLeft
    by_cases hxp : less x p = true
    · rw [if_pos hxp, List.pairwise_cons]
      refine ⟨?_, ?_⟩
      · intro z hz
        rcases (insertLeft_mem less x ps z).mp hz with hzx | hzps
        · rw [hzx]; exact hasym p (by simp) hxp
        · exact hacc.1 z hzps
      · exact ih (fun y hy => hasym y (by simp [hy]))
          (fun y hy z hz => htrans y (by simp [hy]) z (by simp [hz])) hacc.2
    · rw [if_neg hxp, List.pairwise_cons]
      have hxp2 : less x p = false := by simpa using hxp
      refine ⟨?_, List.pairwise_cons.mpr hacc⟩
      intro z hz
      rcases List.mem_cons.mp hz with hzp | hzps
      · rw [hzp]; exact hxp2
      · exact htrans p (by simp) z (by simp [hzps]) hxp2 (hacc.1 z hzps)

theorem foldl_insertLeft_pairwise {α : Type} (less : α → α → Bool) (S : α → Prop)
    (hasym : ∀ x y, S x → S y → less x y = true → less y x = false)
    (htrans : ∀ x y z, S x → S y → S z → less x y = false → less y z = false → less x z = false) :
    ∀ (l acc : List α), (∀ x ∈ l, S x) → (∀ x ∈ acc, S x) →
      acc.Pairwise (fun y z => less y z = false) →
      (l.foldl (fun sorted x => insertLeft less x sorted) acc).Pairwise
        (fun y z => less y z = false) := by
  intro l
  induction l with
  | nil => intro acc _ _ h; exact h
  | cons x xs ih =>
    intro acc hl hacc hp
    simp only [List.foldl_cons]
    have hx : S x := hl x (by simp)
    apply ih
    · intro y hy; exact hl y (by simp [hy])
    · intro y hy
      rcases (insertLeft_mem less x acc y).mp hy with h | h
      · rw [h]; exact hx
      · exact hacc y h
    · exact insertLeft_pairwise less x acc
        (fun y hy => hasym x y hx (hacc y hy))
        (fun y hy z hz => htrans x y z hx (hacc y hy) (hacc z hz)) hp

theorem sortSort_pairwise {α : Type} (less : α → α → Bool) (S : α → Prop)
    (hasym : ∀ x y, S x → S y → less x y = true → less y x = false)
    (htrans : ∀ x y z, S x → S y → S z → less x y = false → less y z = false → less x z = false)
    (l : List α) (hl : ∀ x ∈ l, S x) :
    (sortSort less l).Pairwise (fun a b => less b a = false) := by
  unfold sortSort
  rw [List.pairwise_reverse]
  exact foldl_insertLeft_pairwise less S hasym htrans l [] hl (by simp) List.Pairwise.nil

theorem Split_ne_nil (sep : Char) (s : List Char) : Split sep s ≠ [] := by
  induction s with
  | nil => simp [Split]
  | cons c cs ih =>
    unfold Split
    split
    · simp
    · split <;> simp

theorem SemVersion_eq (branch : String) : SemVersion branch = NewSemver (lastSegment branch) := by
  unfold SemVersion lastSegment
  have h : (Split '/' (ReplaceAll branch.data "version_".data [])).length > 0 :=
    List.length_pos.mpr (Split_ne_nil _ _)
  simp only [h, if_true]
  cases NewSemver _ <;> rfl

theorem newVersion_original (sv : Bool) (v : String) (ver : Version)
    (h : newVersion sv v = .ok ver) : ver.original = v := by
  unfold newVersion at h
  split at h
  · cases h
  · split at h
    · cases h
    · cases h
      rfl

theorem ParseInt_nonneg_of_digits (str : List Char) (h : str.all Char.isDigit = true) :
    0 ≤ (ParseInt str).1 := by
  cases str with
  | nil => simp [ParseInt]
  | cons c cs =>
    have hc : c.isDigit = true := by
      simp only [List.all_cons, Bool.and_eq_true] at h
      exact h.1
    have h1 : c ≠ '-' := by
      intro e; rw [e] at hc; exact absurd hc (by decide)
    have h2 : c ≠ '+' := by
      intro e; rw [e] at hc; exact absurd hc (by decide)
    unfold ParseInt
    have hneg : (match c :: cs with
        | '-' :: _ => true
        | _ => false) = false := by
      split
      · rename_i heq; cases heq; exact absurd rfl h1
      · rfl
    have hdig : (match c :: cs with
        | '+' :: r => r
        | '-' :: r => r
        | _ => c :: cs) = c :: cs := by
      split
      · rename_i heq; cases heq; exact absurd rfl h2
      · rename_i heq; cases heq; exact absurd rfl h1
      · rfl
    simp only [hneg, hdig]
    split
    · simp
    · simp only [Bool.not_false, if_true]
      split
      · simp
      · simp

theorem parseSegments_nonneg : ∀ (parts : List (List Char)) (vals : List Int),
    (∀ p ∈ parts, p.all Char.isDigit = true) → parseSegments parts = some vals →
    ∀ x ∈ vals, 0 ≤ x := by
  intro parts
  induction parts with
  | nil =>
    intro vals _ h x hx
    simp only [parseSegments, Option.some.injEq] at h
    subst h
    simp at hx
  | cons str strs ih =>
    intro vals hd h x hx
    unfold parseSegments at h
    split at h
    · split at h
      · rename_i vals1 hv
        simp only [Option.some.injEq] at h
        subst h
        rcases List.mem_cons.mp hx with hx1 | hx1
        · rw [hx1]; exact ParseInt_nonneg_of_digits str (hd str (by simp))
        · exact ih vals1 (fun p hp => hd p (by simp [hp])) hv x hx1
      · cases h
    · cases h

theorem findSubmatch_validSegments (sv : Bool) (v segs pre metadata : List Char)
    (h : findSubmatch sv v = some (segs, pre, metadata)) : validSegments segs = true := by
  unfold findSubmatch at h
  simp only [] at h
  split at h
  · cases h
  · rename_i hv
    split at h
    · simp only [Option.some.injEq, Prod.mk.injEq] at h
      rw [← h.1]
      simpa using hv
    · cases h

theorem newVersion_segments_nonneg (sv : Bool) (v : String) (ver : Version)
    (h : newVersion sv v = .ok ver) : ∀ x ∈ ver.segments, 0 ≤ x := by
  unfold newVersion at h
  split at h
  · cases h
  · rename_i segs pre metadata hf
    split at h
    · cases h
    · rename_i segments hp
      cases h
      have hvalid := findSubmatch_validSegments sv v.data segs pre metadata hf
      have hdig : ∀ p ∈ Split '.' segs, p.all Char.isDigit = true := by
        intro p hp
        unfold validSegments at hvalid
        rw [List.all_eq_true] at hvalid
        have := hvalid p hp
        simp only [Bool.and_eq_true] at this
        exact this.2
      intro x hx
      simp only [List.mem_append, List.mem_replicate] at hx
      rcases hx with hx | hx
      · exact parseSegments_nonneg _ _ hdig hp x hx
      · rw [hx.2]

theorem NewVersion_zero : NewVersion "0" = .ok zeroVersion := by rfl

theorem NewSemver_zero : NewSemver "0" = .ok zeroVersion := by rfl

theorem NewVersion_devel : NewVersion "99999999" = .ok develVersion := by rfl

theorem extractSemVersion_eq (branch : String) :
    extractSemVersion branch =
      match NewSemver (lastSegment branch) with
      | .ok semver => semver
      | .error _ => if branch = "devel" then develVersion else zeroVersion := by
  unfold extractSemVersion extractSemVersionZero
  rw [SemVersion_eq, NewVersion_zero, NewVersion_devel]

theorem extractSemVersion_segments_nonneg (branch : String) :
    ∀ x ∈ (extractSemVersion branch).segments, 0 ≤ x := by
  rw [extractSemVersion_eq]
  split
  · rename_i semver h
    exact newVersion_segments_nonneg true _ semver h
  · split
    · decide
    · decide

theorem extractSemVersion_original_zero (branch : String) :
    (extractSemVersion branch).Original = "0" ↔ extractSemVersion branch = zeroVersion := by
  constructor
  · rw [extractSemVersion_eq]
    split
    · rename_i semver h
      intro ho
      have h1 := newVersion_original true _ semver h
      unfold Version.Original at ho
      rw [ho] at h1
      unfold NewSemver at h
      rw [← h1] at h
      have h2 := NewSemver_zero
      unfold NewSemver at h2
      rw [h2] at h
      exact (Except.ok.inj h).symm
    · split
      · intro ho; exact absurd ho (by decide)
      · intro _; rfl
  · intro h
    rw [h]
    rfl


theorem Less_iff_of_no_pre (x y : String) (hx : (extractSemVersion x).pre = "")
    (hy : (extractSemVersion y).pre = "") :
    BySemVersion.Less x y = true ↔
      compareSegments (extractSemVersion x).segments (extractSemVersion y).segments < 0 :=
  LessThan_of_no_pre _ _ hx hy

theorem Less_false_iff_of_no_pre (x y : String) (hx : (extractSemVersion x).pre = "")
    (hy : (extractSemVersion y).pre = "") :
    BySemVersion.Less x y = false ↔
      compareSegments (extractSemVersion y).segments (extractSemVersion x).segments ≤ 0 := by
  rw [← Bool.not_eq_true, Less_iff_of_no_pre x y hx hy, compareSegments_swap]
  omega

theorem sortSort_ascending_of_no_pre (l : List String)
    (hl : ∀ x ∈ l, (extractSemVersion x).pre = "") :
    (sortSort BySemVersion.Less l).Pairwise (fun a b => BySemVersion.Less b a = false) := by
  apply sortSort_pairwise BySemVersion.Less (fun x => (extractSemVersion x).pre = "") _ _ l hl
  · intro x y hx hy h
    rw [Less_iff_of_no_pre x y hx hy] at h
    rw [Less_false_iff_of_no_pre y x hy hx]
    omega
  · intro x y z hx hy hz h1 h2
    rw [Less_false_iff_of_no_pre x y hx hy] at h1
    rw [Less_false_iff_of_no_pre y z hy hz] at h2
    rw [Less_false_iff_of_no_pre x z hx hz]
    exact compareSegments_trans _ _ _ (extractSemVersion_segments_nonneg z)
      (extractSemVersion_segments_nonneg y) (extractSemVersion_segments_nonneg x) h2 h1

/-- Among prereleases of one version `LessThan` is not even transitive: a
missing part is below a numeric part, a numeric part below an alphanumeric
one, and an alphanumeric part below a missing one. -/
theorem Less_cycle_among_prereleases :
    BySemVersion.Less "release/1.0.0-a" "release/1.0.0-a.1" = true ∧
    BySemVersion.Less "release/1.0.0-a.1" "release/1.0.0-a.b" = true ∧
    BySemVersion.Less "release/1.0.0-a.b" "release/1.0.0-a" = true := by
  decide

/-! ## Lemmas on names of the form `release/M.m.p` -/

theorem isDigit_ne (c d : Char) (hc : c.isDigit = true) (hd : d.isDigit = false) : c ≠ d := by
  intro e
  rw [e, hd] at hc
  exact Bool.false_ne_true hc

theorem replaceAllAux_id_of_no_v (t : List Char) (h : ∀ c ∈ t, c ≠ 'v') :
    replaceAllAux "version_".data [] 0 t = t := by
  induction t with
  | nil => rfl
  | cons c cs ih =>
    have hc : c ≠ 'v' := h c (by simp)
    have hc2 : ¬ ('v' = c) := fun e => hc e.symm
    have hp : List.isPrefixOf "version_".data (c :: cs) = false := by
      show List.isPrefixOf ('v' :: "ersion_".data) (c :: cs) = false
      simp [List.isPrefixOf, hc2]
    unfold replaceAllAux
    rw [if_neg (by simp [hp])]
    rw [ih (fun x hx => h x (by simp [hx]))]

theorem Split_single (sep : Char) (t : List Char) (h : sep ∉ t) : Split sep t = [t] := by
  induction t with
  | nil => rfl
  | cons c cs ih =>
    have hc : c ≠ sep := fun e => h (by simp [e])
    have hcs : sep ∉ cs := fun e => h (by simp [e])
    unfold Split
    rw [if_neg hc, ih hcs]

theorem Split_append_sep (sep : Char) (a rest : List Char) (h : sep ∉ a) :
    Split sep (a ++ sep :: rest) = a :: Split sep rest := by
  induction a with
  | nil => simp [Split]
  | cons c cs ih =>
    have hc : c ≠ sep := fun e => h (by simp [e])
    have hcs : sep ∉ cs := fun e => h (by simp [e])
    simp only [List.cons_append]
    rw [Split, if_neg hc, ih hcs]

theorem isNumber_not_mem (d : List Char) (hd : isNumber d) (c : Char) (hc : c.isDigit = false) :
    c ∉ d := by
  intro hmem
  have := List.all_eq_true.mp hd.2 c hmem
  rw [hc] at this
  exact Bool.false_ne_true this

theorem dotted_not_mem (dM dm dp : List Char) (hM : isNumber dM) (hm : isNumber dm)
    (hp : isNumber dp) (c : Char) (hc : c.isDigit = false) (hdot : c ≠ '.') :
    c ∉ dotted dM dm dp := by
  unfold dotted
  simp only [List.mem_append, List.mem_cons, not_or]
  exact ⟨isNumber_not_mem dM hM c hc, hdot, isNumber_not_mem dm hm c hc, hdot,
    isNumber_not_mem dp hp c hc⟩

theorem Split_dotted (dM dm dp : List Char) (hM : isNumber dM) (hm : isNumber dm)
    (hp : isNumber dp) : Split '.' (dotted dM dm dp) = [dM, dm, dp] := by
  unfold dotted
  rw [Split_append_sep '.' dM _ (isNumber_not_mem dM hM '.' (by decide)),
    Split_append_sep '.' dm _ (isNumber_not_mem dm hm '.' (by decide)),
    Split_single '.' dp (isNumber_not_mem dp hp '.' (by decide))]

theorem ParseInt_of_isNumber (d : List Char) (hd : isNumber d) (hv : digitsValue d < 2 ^ 63) :
    ParseInt d = ((digitsValue d : Int), true) := by
  obtain ⟨hne, hall⟩ := hd
  cases d with
  | nil => exact absurd rfl hne
  | cons c cs =>
    have hc : c.isDigit = true := by
      simp only [List.all_cons, Bool.and_eq_true] at hall
      exact hall.1
    have h1 : c ≠ '-' := isDigit_ne c '-' hc (by decide)
    have h2 : c ≠ '+' := isDigit_ne c '+' hc (by decide)
    unfold ParseInt
    have hneg : (match c :: cs with
        | '-' :: _ => true
        | _ => false) = false := by
      split
      · rename_i heq; cases heq; exact absurd rfl h1
      · rfl
    have hdig : (match c :: cs with
        | '+' :: r => r
        | '-' :: r => r
        | _ => c :: cs) = c :: cs := by
      split
      · rename_i heq; cases heq; exact absurd rfl h2
      · rename_i heq; cases heq; exact absurd rfl h1
      · rfl
    simp only [hneg, hdig]
    simp only [hall, List.isEmpty_cons, Bool.not_true, Bool.or_self, Bool.false_eq_true,
      if_false, Bool.not_false, if_true]
    rw [if_neg (by omega)]

theorem findSubmatch_dotted (sv : Bool) (dM dm dp : List Char) (hM : isNumber dM)
    (hm : isNumber dm) (hp : isNumber dp) :
    findSubmatch sv (dotted dM dm dp) = some (dotted dM dm dp, [], []) ∧
    findSubmatch sv ('v' :: dotted dM dm dp) = some (dotted dM dm dp, [], []) := by
  have hall : ∀ c ∈ dotted dM dm dp, (c.isDigit || c == '.') = true := by
    intro c hc
    unfold dotted at hc
    simp only [List.mem_append, List.mem_cons] at hc
    rcases hc with h | h | h | h | h
    · simp [List.all_eq_true.mp hM.2 c h]
    · simp [h]
    · simp [List.all_eq_true.mp hm.2 c h]
    · simp [h]
    · simp [List.all_eq_true.mp hp.2 c h]
  have htake : (dotted dM dm dp).takeWhile (fun c => c.isDigit || c == '.') = dotted dM dm dp :=
    List.takeWhile_eq_self_iff.mpr hall
  have hdrop : (dotted dM dm dp).dropWhile (fun c => c.isDigit || c == '.') = [] :=
    List.dropWhile_eq_nil_iff.mpr hall
  have hvalid : validSegments (dotted dM dm dp) = true := by
    unfold validSegments
    rw [Split_dotted dM dm dp hM hm hp]
    simp [hM.1, hM.2, hm.1, hm.2, hp.1, hp.2]
  have hv : (match dotted dM dm dp with
      | 'v' :: r => r
      | _ => dotted dM dm dp) = dotted dM dm dp := by
    split
    · rename_i r heq
      have : 'v' ∈ dotted dM dm dp := by rw [heq]; simp
      exact absurd this (dotted_not_mem dM dm dp hM hm hp 'v' (by decide) (by decide))
    · rfl
  constructor
  · unfold findSubmatch
    simp only [hv, htake, hdrop, hvalid]
    rfl
  · unfold findSubmatch
    simp only [htake, hdrop, hvalid]
    rfl

theorem newVersion_dotted (sv : Bool) (dM dm dp : List Char) (hM : isNumber dM)
    (hm : isNumber dm) (hp : isNumber dp) (vM : digitsValue dM < 2 ^ 63)
    (vm : digitsValue dm < 2 ^ 63) (vp : digitsValue dp < 2 ^ 63) :
    newVersion sv (String.mk (dotted dM dm dp)) = .ok
      { metadata := "", pre := "",
        segments := [(digitsValue dM : Int), (digitsValue dm : Int), (digitsValue dp : Int)],
        si := 3, original := String.mk (dotted dM dm dp) } ∧
    newVersion sv (String.mk ('v' :: dotted dM dm dp)) = .ok
      { metadata := "", pre := "",
        segments := [(digitsValue dM : Int), (digitsValue dm : Int), (digitsValue dp : Int)],
        si := 3, original := String.mk ('v' :: dotted dM dm dp) } := by
  have hf := findSubmatch_dotted sv dM dm dp hM hm hp
  have hs := Split_dotted dM dm dp hM hm hp
  have hparse : parseSegments [dM, dm, dp]
      = some [(digitsValue dM : Int), (digitsValue dm : Int), (digitsValue dp : Int)] := by
    simp [parseSegments, ParseInt_of_isNumber dM hM vM, ParseInt_of_isNumber dm hm vm,
      ParseInt_of_isNumber dp hp vp]
  constructor
  · unfold newVersion
    simp only [hf.1, hs, hparse]
    rfl
  · unfold newVersion
    simp only [hf.2, hs, hparse]
    rfl

theorem replaceAllAux_cons_of_ne (c : Char) (cs : List Char) (h : c ≠ 'v') :
    replaceAllAux ['v', 'e', 'r', 's', 'i', 'o', 'n', '_'] [] 0 (c :: cs)
      = c :: replaceAllAux ['v', 'e', 'r', 's', 'i', 'o', 'n', '_'] [] 0 cs := by
  have h2 : ¬ ('v' = c) := fun e => h e.symm
  rw [replaceAllAux, if_neg (by simp [List.isPrefixOf, h2])]

theorem release_no_v : ∀ c ∈ "release/".data, c ≠ 'v' := by decide

theorem ReplaceAll_release (t : List Char) (ht : ∀ c ∈ t, c ≠ 'v') :
    ReplaceAll ("release/".data ++ t) "version_".data [] = "release/".data ++ t := by
  unfold ReplaceAll
  apply replaceAllAux_id_of_no_v
  intro c hc
  rcases List.mem_append.mp hc with h | h
  · exact release_no_v c h
  · exact ht c h

theorem ReplaceAll_release_v (d : Char) (t : List Char) (hd : d.isDigit = true)
    (ht : ∀ c ∈ t, c ≠ 'v') :
    ReplaceAll ("release/".data ++ 'v' :: d :: t) "version_".data []
      = "release/".data ++ 'v' :: d :: t := by
  have hde : ¬ ('e' = d) := fun e => isDigit_ne d 'e' hd (by decide) e.symm
  have hdv : d ≠ 'v' := isDigit_ne d 'v' hd (by decide)
  have htail : replaceAllAux ['v', 'e', 'r', 's', 'i', 'o', 'n', '_'] [] 0 (d :: t) = d :: t :=
    replaceAllAux_id_of_no_v (d :: t) (by
      intro c hc
      rcases List.mem_cons.mp hc with h | h
      · rw [h]; exact hdv
      · exact ht c h)
  have hv : replaceAllAux ['v', 'e', 'r', 's', 'i', 'o', 'n', '_'] [] 0 ('v' :: d :: t)
      = 'v' :: d :: t := by
    rw [replaceAllAux, if_neg (by simp [List.isPrefixOf, hde]), htail]
  show replaceAllAux ['v', 'e', 'r', 's', 'i', 'o', 'n', '_'] [] 0
      ('r' :: 'e' :: 'l' :: 'e' :: 'a' :: 's' :: 'e' :: '/' :: 'v' :: d :: t)
    = 'r' :: 'e' :: 'l' :: 'e' :: 'a' :: 's' :: 'e' :: '/' :: 'v' :: d :: t
  rw [replaceAllAux_cons_of_ne _ _ (by decide), replaceAllAux_cons_of_ne _ _ (by decide),
    replaceAllAux_cons_of_ne _ _ (by decide), replaceAllAux_cons_of_ne _ _ (by decide),
    replaceAllAux_cons_of_ne _ _ (by decide), replaceAllAux_cons_of_ne _ _ (by decide),
    replaceAllAux_cons_of_ne _ _ (by decide), replaceAllAux_cons_of_ne _ _ (by decide), hv]

theorem ReplaceAll_release_version (t : List Char) (ht : ∀ c ∈ t, c ≠ 'v') :
    ReplaceAll ("release/version_".data ++ t) "version_".data [] = "release/".data ++ t := by
  have h : replaceAllAux ['v', 'e', 'r', 's', 'i', 'o', 'n', '_'] [] 0 t = t :=
    replaceAllAux_id_of_no_v t ht
  have hv : replaceAllAux ['v', 'e', 'r', 's', 'i', 'o', 'n', '_'] [] 0
      ('v' :: 'e' :: 'r' :: 's' :: 'i' :: 'o' :: 'n' :: '_' :: t) = t := by
    simp only [replaceAllAux, List.isPrefixOf, beq_self_eq_true, Bool.and_self, Bool.true_and,
      List.length_cons, List.length_nil, if_true, List.nil_append]
    exact h
  show replaceAllAux ['v', 'e', 'r', 's', 'i', 'o', 'n', '_'] [] 0
      ('r' :: 'e' :: 'l' :: 'e' :: 'a' :: 's' :: 'e' :: '/' ::
        'v' :: 'e' :: 'r' :: 's' :: 'i' :: 'o' :: 'n' :: '_' :: t)
    = 'r' :: 'e' :: 'l' :: 'e' :: 'a' :: 's' :: 'e' :: '/' :: t
  rw [replaceAllAux_cons_of_ne _ _ (by decide), replaceAllAux_cons_of_ne _ _ (by decide),
    replaceAllAux_cons_of_ne _ _ (by decide), replaceAllAux_cons_of_ne _ _ (by decide),
    replaceAllAux_cons_of_ne _ _ (by decide), replaceAllAux_cons_of_ne _ _ (by decide),
    replaceAllAux_cons_of_ne _ _ (by decide), replaceAllAux_cons_of_ne _ _ (by decide), hv]

theorem lastSegment_release (t : List Char) (hv : ∀ c ∈ t, c ≠ 'v') (hs : '/' ∉ t) :
    lastSegment (String.mk ("release/".data ++ t)) = String.mk t ∧
    lastSegment (String.mk ("release/version_".data ++ t)) = String.mk t := by
  have hsplit : Split '/' ("release/".data ++ t) = ["release".data, t] := by
    show Split '/' ("release".data ++ '/' :: t) = ["release".data, t]
    rw [Split_append_sep '/' "release".data t (by decide), Split_single '/' t hs]
  constructor
  · unfold lastSegment
    rw [ReplaceAll_release t hv, hsplit]
    rfl
  · unfold lastSegment
    rw [ReplaceAll_release_version t hv, hsplit]
    rfl

theorem lastSegment_release_v (d : Char) (t : List Char) (hd : d.isDigit = true)
    (hv : ∀ c ∈ t, c ≠ 'v') (hs : '/' ∉ t) :
    lastSegment (String.mk ("release/".data ++ 'v' :: d :: t)) = String.mk ('v' :: d :: t) := by
  have hsplit : Split '/' ("release/".data ++ 'v' :: d :: t) = ["release".data, 'v' :: d :: t] := by
    show Split '/' ("release".data ++ '/' :: 'v' :: d :: t) = ["release".data, 'v' :: d :: t]
    have hd2 : d ≠ '/' := isDigit_ne d '/' hd (by decide)
    rw [Split_append_sep '/' "release".data _ (by decide),
      Split_single '/' ('v' :: d :: t) (by
        simp only [List.mem_cons, not_or]
        exact ⟨by decide, fun e => hd2 e.symm, hs⟩)]
  unfold lastSegment
  rw [ReplaceAll_release_v d t hd hv, hsplit]
  rfl

theorem digitsValue_foldl (cs : List Char) : ∀ init : Nat,
    cs.foldl (fun n c => 10 * n + (c.toNat - 48)) init
      = init * 10 ^ cs.length + digitsValue cs := by
  induction cs with
  | nil => intro init; simp [digitsValue]
  | cons c cs ih =>
    intro init
    unfold digitsValue
    simp only [List.foldl_cons, List.length_cons]
    rw [ih (10 * init + (c.toNat - 48)), ih (10 * 0 + (c.toNat - 48))]
    ring

theorem digitsValue_cons (c : Char) (cs : List Char) :
    digitsValue (c :: cs) = (c.toNat - 48) * 10 ^ cs.length + digitsValue cs := by
  have h := digitsValue_foldl cs (c.toNat - 48)
  unfold digitsValue at h ⊢
  simp only [List.foldl_cons]
  simpa using h

theorem digitChar_spec : ∀ k : Nat, k < 10 →
    (Nat.digitChar k).isDigit = true ∧ (Nat.digitChar k).toNat - 48 = k := by
  decide

theorem toDigitsCore_spec : ∀ (fuel n : Nat) (ds : List Char), n < fuel →
    (∀ c ∈ ds, c.isDigit = true) →
    (∀ c ∈ Nat.toDigitsCore 10 fuel n ds, c.isDigit = true) ∧
    Nat.toDigitsCore 10 fuel n ds ≠ [] ∧
    digitsValue (Nat.toDigitsCore 10 fuel n ds) = n * 10 ^ ds.length + digitsValue ds := by
  intro fuel
  induction fuel with
  | zero => intro n ds h; omega
  | succ fuel ih =>
    intro n ds hn hds
    have hk := digitChar_spec (n % 10) (Nat.mod_lt n (by decide))
    have hds2 : ∀ c ∈ Nat.digitChar (n % 10) :: ds, c.isDigit = true := by
      intro c hc
      rcases List.mem_cons.mp hc with h | h
      · rw [h]; exact hk.1
      · exact hds c h
    unfold Nat.toDigitsCore
    simp only []
    by_cases h0 : n / 10 = 0
    · rw [if_pos h0]
      refine ⟨hds2, by simp, ?_⟩
      rw [digitsValue_cons, hk.2]
      have : n % 10 = n := by omega
      rw [this]
    · rw [if_neg h0]
      obtain ⟨h1, h2, h3⟩ := ih (n / 10) (Nat.digitChar (n % 10) :: ds) (by omega) hds2
      refine ⟨h1, h2, ?_⟩
      rw [h3, digitsValue_cons, hk.2, List.length_cons, pow_succ]
      have hdm : n = 10 * (n / 10) + n % 10 := (Nat.div_add_mod n 10).symm
      generalize 10 ^ ds.length = P at *
      generalize n / 10 = q at *
      generalize n % 10 = r at *
      subst hdm
      ring

theorem repr_isNumber (n : Nat) :
    isNumber (toString n).data ∧ digitsValue (toString n).data = n := by
  have h := toDigitsCore_spec (n + 1) n [] (by omega) (by simp)
  have hdata : (toString n).data = Nat.toDigitsCore 10 (n + 1) n [] := rfl
  rw [hdata]
  refine ⟨⟨h.2.1, List.all_eq_true.mpr h.1⟩, ?_⟩
  rw [h.2.2]
  simp [digitsValue]

theorem extractSemVersion_release_dotted (dM dm dp : List Char) (hM : isNumber dM)
    (hm : isNumber dm) (hp : isNumber dp) (vM : digitsValue dM < 2 ^ 63)
    (vm : digitsValue dm < 2 ^ 63) (vp : digitsValue dp < 2 ^ 63) :
    extractSemVersion (String.mk ("release/".data ++ dotted dM dm dp)) =
      { metadata := "", pre := "",
        segments := [(digitsValue dM : Int), (digitsValue dm : Int), (digitsValue dp : Int)],
        si := 3, original := String.mk (dotted dM dm dp) } ∧
    extractSemVersion (String.mk ("release/".data ++ 'v' :: dotted dM dm dp)) =
      { metadata := "", pre := "",
        segments := [(digitsValue dM : Int), (digitsValue dm : Int), (digitsValue dp : Int)],
        si := 3, original := String.mk ('v' :: dotted dM dm dp) } ∧
    extractSemVersion (String.mk ("release/version_".data ++ dotted dM dm dp)) =
      { metadata := "", pre := "",
        segments := [(digitsValue dM : Int), (digitsValue dm : Int), (digitsValue dp : Int)],
        si := 3, original := String.mk (dotted dM dm dp) } := by
  have hnv : ∀ c ∈ dotted dM dm dp, c ≠ 'v' := fun c hc e =>
    dotted_not_mem dM dm dp hM hm hp 'v' (by decide) (by decide) (e ▸ hc)
  have hns : '/' ∉ dotted dM dm dp :=
    dotted_not_mem dM dm dp hM hm hp '/' (by decide) (by decide)
  have hl := lastSegment_release (dotted dM dm dp) hnv hns
  have hn := newVersion_dotted true dM dm dp hM hm hp vM vm vp
  refine ⟨?_, ?_, ?_⟩
  · rw [extractSemVersion_eq, hl.1]
    unfold NewSemver
    rw [hn.1]
  · obtain ⟨d, t, hdt⟩ : ∃ d t, dotted dM dm dp = d :: t := by
      cases hd : dotted dM dm dp with
      | nil =>
        have : dM = [] := by
          unfold dotted at hd
          exact (List.append_eq_nil.mp hd).1
        exact absurd this hM.1
      | cons d t => exact ⟨d, t, rfl⟩
    have hd : d.isDigit = true := by
      cases hdM : dM with
      | nil => exact absurd hdM hM.1
      | cons d2 dM2 =>
        have h2 : d2.isDigit = true := List.all_eq_true.mp hM.2 d2 (by rw [hdM]; simp)
        unfold dotted at hdt
        rw [hdM] at hdt
        simp only [List.cons_append, List.cons.injEq] at hdt
        rw [← hdt.1]; exact h2
    have hl2 := lastSegment_release_v d t hd
      (fun c hc => hnv c (by rw [hdt]; simp [hc]))
      (fun hc => hns (by rw [hdt]; simp [hc]))
    rw [← hdt] at hl2
    rw [extractSemVersion_eq, hl2]
    unfold NewSemver
    rw [hn.2]
  · rw [extractSemVersion_eq, hl.2]
    unfold NewSemver
    rw [hn.1]

theorem versionText_data (M m p : Nat) :
    (versionText M m p).data = dotted (toString M).data (toString m).data (toString p).data := by
  simp [versionText, dotted, String.data_append]

theorem extractSemVersion_release (M m p : Nat) (hM : M < 2 ^ 63) (hm : m < 2 ^ 63)
    (hp : p < 2 ^ 63) :
    extractSemVersion ("release/" ++ versionText M m p) =
      { metadata := "", pre := "", segments := [(M : Int), (m : Int), (p : Int)],
        si := 3, original := versionText M m p } ∧
    extractSemVersion ("release/v" ++ versionText M m p) =
      { metadata := "", pre := "", segments := [(M : Int), (m : Int), (p : Int)],
        si := 3, original := "v" ++ versionText M m p } ∧
    extractSemVersion ("release/version_" ++ versionText M m p) =
      { metadata := "", pre := "", segments := [(M : Int), (m : Int), (p : Int)],
        si := 3, original := versionText M m p } ∧
    NewVersion (versionText M m p) = .ok
      { metadata := "", pre := "", segments := [(M : Int), (m : Int), (p : Int)],
        si := 3, original := versionText M m p } := by
  have rM := repr_isNumber M
  have rm := repr_isNumber m
  have rp := repr_isNumber p
  have h := extractSemVersion_release_dotted (toString M).data (toString m).data
    (toString p).data rM.1 rm.1 rp.1 (by rw [rM.2]; exact hM) (by rw [rm.2]; exact hm)
    (by rw [rp.2]; exact hp)
  have hn := (newVersion_dotted false (toString M).data (toString m).data
    (toString p).data rM.1 rm.1 rp.1 (by rw [rM.2]; exact hM) (by rw [rm.2]; exact hm)
    (by rw [rp.2]; exact hp)).1
  rw [rM.2, rm.2, rp.2, ← versionText_data] at h hn
  have e1 : "release/" ++ versionText M m p
      = String.mk ("release/".data ++ (versionText M m p).data) := rfl
  have e2 : "release/v" ++ versionText M m p
      = String.mk ("release/".data ++ 'v' :: (versionText M m p).data) := rfl
  have e3 : "release/version_" ++ versionText M m p
      = String.mk ("release/version_".data ++ (versionText M m p).data) := rfl
  have e4 : "v" ++ versionText M m p = String.mk ('v' :: (versionText M m p).data) := rfl
  have e5 : String.mk (versionText M m p).data = versionText M m p := rfl
  rw [e1, e2, e3, e4]
  rw [e5] at h hn
  exact ⟨h.1, h.2.1, h.2.2, hn⟩

/-! ## C1 -/

/-- C1 (counterexample): on the cascade `["release/1.0.0", "release/1.0.0.0"]`
the new name "release/1.0.0-alpha" is not present and its version is not zero,
yet after `AppendSemVer` it stands last although its version is less than that
of the first entry: entries 0 and 2 are out of order. (1.0.0-alpha compares equal
to 1.0.0.0, which has another number of segments, and 1.0.0.0 equal to 1.0.0.) -/
theorem AppendSemVer_not_ascending_with_prerelease :
    "release/1.0.0-alpha" ∉ (Cascade.mk ["release/1.0.0", "release/1.0.0.0"] 0).Branches ∧
    (extractSemVersion "release/1.0.0-alpha").Equal zeroVersion = false ∧
    (extractSemVersion "release/1.0.0-alpha").Original ≠ "0" ∧
    ((Cascade.mk ["release/1.0.0", "release/1.0.0.0"] 0).AppendSemVer
        "release/1.0.0-alpha").Branches
      = ["release/1.0.0", "release/1.0.0.0", "release/1.0.0-alpha"] ∧
    BySemVersion.Less "release/1.0.0-alpha" "release/1.0.0" = true := by
  decide

/-- C1 (amended): for a name `b` that is not in `c.Branches` and whose version
is not the zero sentinel (its original text is not "0"), `AppendSemVer(b)` leaves
a permutation of the old list plus `b`; and when no name involved has a
prerelease part, the list is in ascending version order: for all `i < j` the
version of `Branches[j]` is not less than the version of `Branches[i]`. -/
theorem AppendSemVer_perm_and_ascending (c : Cascade) (b : String) (hb : b ∉ c.Branches)
    (h0 : (extractSemVersion b).Original ≠ "0") :
    (c.AppendSemVer b).Branches.Perm (c.Branches ++ [b]) ∧
    ((∀ x ∈ c.Branches ++ [b], (extractSemVersion x).pre = "") →
      ∀ (i j : Nat) (hi : i < (c.AppendSemVer b).Branches.length)
        (hj : j < (c.AppendSemVer b).Branches.length), i < j →
        BySemVersion.Less ((c.AppendSemVer b).Branches[j]) ((c.AppendSemVer b).Branches[i])
          = false) := by
  have heq : (c.AppendSemVer b).Branches = sortSort BySemVersion.Less (c.Branches ++ [b]) := by
    rw [AppendSemVer_of_not_mem c b hb, if_pos h0]
  refine ⟨by rw [heq]; exact sortSort_perm _ _, ?_⟩
  intro hpre
  have hp := sortSort_ascending_of_no_pre (c.Branches ++ [b]) hpre
  rw [← heq] at hp
  exact List.pairwise_iff_getElem.mp hp

theorem AppendSemVer_perm_and_ascending_witness :
    ((Cascade.mk ["release/2", "release/10.1", "devel"] 0).AppendSemVer "release/v3.0.0").Branches.Perm
      ((Cascade.mk ["release/2", "release/10.1", "devel"] 0).Branches ++ ["release/v3.0.0"]) ∧
    (∀ (i j : Nat)
        (hi : i < ((Cascade.mk ["release/2", "release/10.1", "devel"] 0).AppendSemVer
          "release/v3.0.0").Branches.length)
        (hj : j < ((Cascade.mk ["release/2", "release/10.1", "devel"] 0).AppendSemVer
          "release/v3.0.0").Branches.length), i < j →
        BySemVersion.Less
          (((Cascade.mk ["release/2", "release/10.1", "devel"] 0).AppendSemVer
            "release/v3.0.0").Branches[j])
          (((Cascade.mk ["release/2", "release/10.1", "devel"] 0).AppendSemVer
            "release/v3.0.0").Branches[i]) = false) :=
  ⟨(AppendSemVer_perm_and_ascending (Cascade.mk ["release/2", "release/10.1", "devel"] 0)
      "release/v3.0.0" (by decide) (by decide)).1,
   (AppendSemVer_perm_and_ascending (Cascade.mk ["release/2", "release/10.1", "devel"] 0)
      "release/v3.0.0" (by decide) (by decide)).2 (by decide)⟩

/-! ## C2 -/

/-- C2: `Slice(s)` never panics and leaves in `Branches` the suffix of the old
list that starts at the first occurrence of `s` (written `pre ++ s :: post` with
`s` not in `pre`), or nothing when `s` does not occur; `Current` is unchanged. -/
theorem Slice_keeps_suffix_from_first_occurrence (c : Cascade) (s : String) :
    (∀ pre post : List String, c.Branches = pre ++ s :: post → s ∉ pre →
        c.Slice s = some { Branches := s :: post, Current := c.Current }) ∧
    (s ∉ c.Branches → c.Slice s = some { Branches := [], Current := c.Current }) := by
  constructor
  · intro pre post hb hpre
    rw [Slice_eq_dropWhile, hb, dropWhile_ne_append s pre post hpre]
  · intro h
    rw [Slice_eq_dropWhile, dropWhile_ne_of_not_mem s c.Branches h]

theorem Slice_keeps_suffix_from_first_occurrence_witness :
    (Cascade.mk ["release/2", "release/3", "devel"] 0).Slice "release/3"
        = some { Branches := ["release/3", "devel"], Current := 0 } ∧
    (Cascade.mk ["release/3", "release/2"] 0).Slice "devel"
        = some { Branches := [], Current := 0 } :=
  ⟨(Slice_keeps_suffix_from_first_occurrence
      (Cascade.mk ["release/2", "release/3", "devel"] 0) "release/3").1
      ["release/2"] ["devel"] rfl (by decide),
   (Slice_keeps_suffix_from_first_occurrence
      (Cascade.mk ["release/3", "release/2"] 0) "devel").2 (by decide)⟩

/-! ## C3 and C4 -/

theorem Next_in_range (c : Cascade) (hlen : (c.Branches.length : Int) ≤ maxInt)
    (h0 : 0 ≤ c.Current) (h1 : c.Current + 1 < c.Branches.length) :
    ∃ b, c.Branches[(c.Current + 1).toNat]? = some b ∧
      c.Next = some (b, { Branches := c.Branches, Current := c.Current + 1 }) := by
  have hw : wrapInt (c.Current + 1) = c.Current + 1 := by
    apply wrapInt_of_inRange
    · omega
    · unfold maxInt at hlen
      omega
  have hi : (c.Current + 1).toNat < c.Branches.length := by omega
  refine ⟨c.Branches[(c.Current + 1).toNat], List.getElem?_eq_getElem hi, ?_⟩
  have hpos : (0 : Int) ≤ c.Current + 1 := by omega
  simp [Cascade.Next, hw, h1, index, hpos, List.getElem?_eq_getElem hi]

theorem runNext_from (bs : List String) (hlen : (bs.length : Int) ≤ maxInt) :
    ∀ (k i : Nat), i + k + 1 ≤ bs.length →
      Cascade.runNext k { Branches := bs, Current := (i : Int) }
        = some ((bs.drop (i + 1)).take k, { Branches := bs, Current := ((i + k : Nat) : Int) }) := by
  intro k
  induction k with
  | zero => intro i _; simp [Cascade.runNext]
  | succ k ih =>
    intro i hik
    obtain ⟨b, hb, hn⟩ := Next_in_range { Branches := bs, Current := (i : Int) } hlen
      (by simp) (by simp; omega)
    have hidx : ((i : Int) + 1).toNat = i + 1 := by omega
    rw [hidx] at hb
    obtain ⟨hlt, hget⟩ := List.getElem?_eq_some.mp hb
    have hd : bs.drop (i + 1) = b :: bs.drop (i + 1 + 1) := by
      rw [List.drop_eq_getElem_cons hlt, hget]
    have hcast : ((i : Int) + 1) = ((i + 1 : Nat) : Int) := by push_cast; ring
    have hsum : i + 1 + k = i + (k + 1) := by omega
    rw [Cascade.runNext, hn]
    simp only [hcast]
    rw [ih (i + 1) (by omega), hd, List.take_succ_cons, hsum]

/-- C3: on a cascade with `0 <= Current` and `Current + 1 < len(Branches)`
(a Go slice has at most `MaxInt64` entries), `Next()` does not panic, returns
`Branches[Current+1]`, adds exactly one to `Current` and leaves `Branches` as it
is; and from `Current = 0` on any list `bs`, `len(bs) - 1` successive calls
return `bs[1], bs[2], ..., bs[len(bs)-1]` in that order and end on the last index. -/
theorem Next_returns_following_branch (c : Cascade) (hlen : (c.Branches.length : Int) ≤ maxInt)
    (h0 : 0 ≤ c.Current) (h1 : c.Current + 1 < c.Branches.length) :
    (∃ b, c.Branches[(c.Current + 1).toNat]? = some b ∧
      c.Next = some (b, { Branches := c.Branches, Current := c.Current + 1 })) ∧
    (∀ bs : List String, (bs.length : Int) ≤ maxInt →
      Cascade.runNext (bs.length - 1) { Branches := bs, Current := 0 }
        = some (bs.drop 1, { Branches := bs, Current := ((bs.length - 1 : Nat) : Int) })) := by
  refine ⟨Next_in_range c hlen h0 h1, ?_⟩
  intro bs hbs
  cases bs with
  | nil => simp [Cascade.runNext]
  | cons a rest =>
    have h := runNext_from (a :: rest) hbs rest.length 0 (by simp)
    simpa using h

theorem Next_returns_following_branch_witness :
    (∃ b, ["release/2", "release/3", "devel"][1]? = some b ∧
      (Cascade.mk ["release/2", "release/3", "devel"] 0).Next
        = some (b, { Branches := ["release/2", "release/3", "devel"], Current := 0 + 1 })) ∧
    Cascade.runNext 2 (Cascade.mk ["release/2", "release/3", "devel"] 0)
      = some (["release/3", "devel"], Cascade.mk ["release/2", "release/3", "devel"] 2) :=
  ⟨(Next_returns_following_branch (Cascade.mk ["release/2", "release/3", "devel"] 0)
      (by decide) (by decide) (by decide)).1,
   (Next_returns_following_branch (Cascade.mk ["release/2", "release/3", "devel"] 0)
      (by decide) (by decide) (by decide)).2 ["release/2", "release/3", "devel"] (by decide)⟩

/-- C5 (counterexample): 9223372036854775808 does not fit a signed 64-bit
integer, so the last segment of "release/9223372036854775808.0.0" does not
parse and the name yields version 0, not 9223372036854775808.0.0. -/
theorem extractSemVersion_of_number_beyond_int64 :
    "release/" ++ versionText 9223372036854775808 0 0 = "release/9223372036854775808.0.0" ∧
    (SemVersion "release/9223372036854775808.0.0").toBool = false ∧
    extractSemVersion "release/9223372036854775808.0.0" = zeroVersion ∧
    (extractSemVersion "release/9223372036854775808.0.0").segments
      ≠ [9223372036854775808, 0, 0] := by
  decide

/-- C5 (amended): `extractSemVersion` never fails (both constructor calls whose
error it drops succeed) and follows the rule of the specification: the semantic
version parsed from the last `/`-separated segment once `version_` is removed,
else 99999999 for exactly "devel", else 0. For all natural numbers `M`, `m`, `p`
below 2^63, "release/M.m.p", "release/vM.m.p" and "release/version_M.m.p" yield
the version `M.m.p` (segments `[M, m, p]`, no prerelease, no metadata: what
`NewVersion("M.m.p")` builds), and "release/not-int" and "invalid format" yield 0. -/
theorem extractSemVersion_follows_spec (b : String) :
    extractSemVersion b = extractVersionSpec b ∧
    NewVersion "99999999" = .ok develVersion ∧ NewVersion "0" = .ok zeroVersion ∧
    (∀ M m p : Nat, M < 2 ^ 63 → m < 2 ^ 63 → p < 2 ^ 63 →
      extractSemVersion ("release/" ++ versionText M m p) =
        { metadata := "", pre := "", segments := [(M : Int), (m : Int), (p : Int)],
          si := 3, original := versionText M m p } ∧
      extractSemVersion ("release/v" ++ versionText M m p) =
        { metadata := "", pre := "", segments := [(M : Int), (m : Int), (p : Int)],
          si := 3, original := "v" ++ versionText M m p } ∧
      extractSemVersion ("release/version_" ++ versionText M m p) =
        { metadata := "", pre := "", segments := [(M : Int), (m : Int), (p : Int)],
          si := 3, original := versionText M m p } ∧
      NewVersion (versionText M m p) = .ok
        { metadata := "", pre := "", segments := [(M : Int), (m : Int), (p : Int)],
          si := 3, original := versionText M m p }) ∧
    extractSemVersion "devel" = develVersion ∧
    extractSemVersion "release/not-int" = zeroVersion ∧
    extractSemVersion "invalid format" = zeroVersion :=
  ⟨extractSemVersion_eq b, NewVersion_devel, NewVersion_zero,
    fun M m p hM hm hp => extractSemVersion_release M m p hM hm hp,
    by decide, by decide, by decide⟩

theorem extractSemVersion_follows_spec_witness :
    extractSemVersion "release/version_22.1.1" = extractVersionSpec "release/version_22.1.1" ∧
    extractSemVersion "release/22.1.1" =
      { metadata := "", pre := "", segments := [22, 1, 1], si := 3, original := "22.1.1" } ∧
    extractSemVersion "release/v22.1.1" =
      { metadata := "", pre := "", segments := [22, 1, 1], si := 3, original := "v22.1.1" } ∧
    extractSemVersion "release/version_22.1.1" =
      { metadata := "", pre := "", segments := [22, 1, 1], si := 3, original := "22.1.1" } :=
  ⟨(extractSemVersion_follows_spec "release/version_22.1.1").1,
   ((extractSemVersion_follows_spec "release/version_22.1.1").2.2.2.1 22 1 1
      (by decide) (by decide) (by decide)).1,
   ((extractSemVersion_follows_spec "release/version_22.1.1").2.2.2.1 22 1 1
      (by decide) (by decide) (by decide)).2.1,
   ((extractSemVersion_follows_spec "release/version_22.1.1").2.2.2.1 22 1 1
      (by decide) (by decide) (by decide)).2.2.1⟩

/-! ## C6 -/

/-- C7 (counterexample): the version of "release/0.0.0" equals version 0, the
zero sentinel that an unparsable name such as "release/not-int" gets, and the
name is not in the cascade; `AppendSemVer` adds it all the same. -/
theorem AppendSemVer_adds_name_of_version_zero :
    "release/0.0.0" ∉ (Cascade.mk ["release/1"] 0).Branches ∧
    (extractSemVersion "release/0.0.0").Equal zeroVersion = true ∧
    (extractSemVersion "release/0.0.0").Equal (extractSemVersion "release/not-int") = true ∧
    (Cascade.mk ["release/1"] 0).AppendSemVer "release/0.0.0"
      = Cascade.mk ["release/0.0.0", "release/1"] 0 := by
  decide

/-- C7 (amended): `AppendSemVer(b)` adds `b` (the new list is a permutation of
the old one plus `b`, `Current` is kept) exactly when `b` is not already present
and the original text of its extracted version is not "0"; in every other case
the cascade is returned unchanged. The original text is "0" exactly when the
extracted version is the very record `NewVersion("0")` returns: a name whose
version merely compares equal to 0 is added. -/
theorem AppendSemVer_adds_iff (c : Cascade) (b : String) :
    (b ∉ c.Branches ∧ (extractSemVersion b).Original ≠ "0" →
      (c.AppendSemVer b).Branches.Perm (c.Branches ++ [b]) ∧
      (c.AppendSemVer b).Current = c.Current) ∧
    (¬ (b ∉ c.Branches ∧ (extractSemVersion b).Original ≠ "0") → c.AppendSemVer b = c) ∧
    ((extractSemVersion b).Original = "0" ↔ extractSemVersion b = zeroVersion) := by
  refine ⟨?_, ?_, extractSemVersion_original_zero b⟩
  · rintro ⟨hb, h0⟩
    rw [AppendSemVer_of_not_mem c b hb, if_pos h0]
    exact ⟨sortSort_perm _ _, rfl⟩
  · intro h
    by_cases hb : b ∈ c.Branches
    · exact AppendSemVer_of_mem c b hb
    · have h0 : ¬ (extractSemVersion b).Original ≠ "0" := fun h0 => h ⟨hb, h0⟩
      rw [AppendSemVer_of_not_mem c b hb, if_neg h0]

theorem AppendSemVer_adds_iff_witness :
    (((Cascade.mk ["release/1", "devel"] 0).AppendSemVer "release/v0").Branches.Perm
        ((Cascade.mk ["release/1", "devel"] 0).Branches ++ ["release/v0"]) ∧
      ((Cascade.mk ["release/1", "devel"] 0).AppendSemVer "release/v0").Current
        = (Cascade.mk ["release/1", "devel"] 0).Current) ∧
    (Cascade.mk ["release/1", "devel"] 0).AppendSemVer "release/0"
      = Cascade.mk ["release/1", "devel"] 0 :=
  ⟨(AppendSemVer_adds_iff (Cascade.mk ["release/1", "devel"] 0) "release/v0").1
      ⟨by decide, by decide⟩,
   (AppendSemVer_adds_iff (Cascade.mk ["release/1", "devel"] 0) "release/0").2.1 (by decide)⟩

/-! ## C8 and C9 -/

/-- C8: on a cascade without a repeated name, `Append(b)`, `AppendSemVer(b)` and
`Slice(s)` each leave a list without a repeated name (and `Slice` does not
panic); appending a name that is already present, with either append, returns
the cascade as it was; and `Append` of the same name twice on the empty cascade
leaves exactly that one entry. -/
theorem no_duplicates_preserved (c : Cascade) (b s : String) (h : c.Branches.Nodup) :
    (c.Append b).Branches.Nodup ∧ (c.AppendSemVer b).Branches.Nodup ∧
    (∃ c1, c.Slice s = some c1 ∧ c1.Branches.Nodup) ∧
    (b ∈ c.Branches → c.Append b = c ∧ c.AppendSemVer b = c) ∧
    (((Cascade.mk [] c.Current).Append b).Append b).Branches = [b] := by
  refine ⟨?_, ?_, ?_, ?_, ?_⟩
  · by_cases hb : b ∈ c.Branches
    · rw [Append_of_mem c b hb]; exact h
    · rw [Append_of_not_mem c b hb]
      exact List.Nodup.append h (List.nodup_singleton b) (by simpa using hb)
  · rcases AppendSemVer_perm_or_same c b with hs | ⟨hp, hb, _⟩
    · rw [hs]; exact h
    · refine hp.nodup_iff.mpr ?_
      exact List.Nodup.append h (List.nodup_singleton b) (by simpa using hb)
  · refine ⟨_, Slice_eq_dropWhile c s, ?_⟩
    exact List.Nodup.sublist (List.dropWhile_sublist _) h
  · intro hb
    exact ⟨Append_of_mem c b hb, AppendSemVer_of_mem c b hb⟩
  · simp [Cascade.Append]

theorem no_duplicates_preserved_witness :
    ((Cascade.mk ["release/2", "devel"] 0).Append "release/3").Branches.Nodup ∧
    ((Cascade.mk ["release/2", "devel"] 0).AppendSemVer "release/3").Branches.Nodup ∧
    (∃ c1, (Cascade.mk ["release/2", "devel"] 0).Slice "devel" = some c1 ∧ c1.Branches.Nodup) ∧
    ((Cascade.mk ["release/2", "devel"] 0).Append "devel" = Cascade.mk ["release/2", "devel"] 0 ∧
      (Cascade.mk ["release/2", "devel"] 0).AppendSemVer "devel"
        = Cascade.mk ["release/2", "devel"] 0) ∧
    (((Cascade.mk [] 0).Append "release/3").Append "release/3").Branches = ["release/3"] :=
  ⟨(no_duplicates_preserved (Cascade.mk ["release/2", "devel"] 0) "release/3" "devel"
      (by decide)).1,
   (no_duplicates_preserved (Cascade.mk ["release/2", "devel"] 0) "release/3" "devel"
      (by decide)).2.1,
   (no_duplicates_preserved (Cascade.mk ["release/2", "devel"] 0) "release/3" "devel"
      (by decide)).2.2.1,
   (no_duplicates_preserved (Cascade.mk ["release/2", "devel"] 0) "devel" "devel"
      (by decide)).2.2.2.1 (by decide),
   (no_duplicates_preserved (Cascade.mk ["release/2", "devel"] 0) "release/3" "devel"
      (by decide)).2.2.2.2⟩

/-- C9 (what the code does): `Append` keeps the order of arrival and never
sorts: "release/3" then "release/2" leaves `["release/3", "release/2"]`, and
"devel" then "release/3" leaves `["devel", "release/3"]`, neither of them the
ascending list `TestCascade_Append` expects. -/
theorem Append_does_not_sort :
    (((Cascade.mk [] 0).Append "release/3").Append "release/2").Branches
        = ["release/3", "release/2"] ∧
    (((Cascade.mk [] 0).Append "devel").Append "release/3").Branches
        = ["devel", "release/3"] ∧
    BySemVersion.Less "release/2" "release/3" = true ∧
    BySemVersion.Less "release/3" "devel" = true := by
  decide

/-! ## C10 -/

theorem workerAfterMerge_calls (state : Option CascadeMergeState) :
    (workerAfterMerge state).calls =
      match state with
      | none => []
      | some st =>
        if st.Source ≠ "" ∧ st.Target ≠ "" then
          [Call.CreatePullRequest "Automatic merge failure"
            "There was a merge conflict automatically merging this branch" st.Source st.Target]
        else [] := by
  cases state with
  | none => rfl
  | some st =>
    by_cases h1 : st.Source = "" <;> by_cases h2 : st.Target = "" <;>
      cases he : st.err <;> simp [workerAfterMerge, h1, h2, he]

theorem processEvent_of_options (w : Collaborators) (e : PullRequestEvent)
    (repository : Repository) (pullRequest : PullRequest) (source destination : PullRequestRef)
    (sourceBranch destinationBranch : PullRequestBranch) (owner : Owner) (url : String)
    (opts : CascadeOptions)
    (hR : e.Repository = some repository) (hP : e.PullRequest = some pullRequest)
    (hS : pullRequest.Source = some source) (hD : pullRequest.Destination = some destination)
    (hSB : source.Branch = some sourceBranch) (hDB : destination.Branch = some destinationBranch)
    (hO : repository.Owner = some owner)
    (hU : w.getCloneURL owner.UUID repository.Name "https" = .ok url)
    (hC : w.getCascadeOptions owner.UUID repository.Name = .ok opts) :
    processEvent w e =
      if HasPrefix destinationBranch.Name opts.DevelopmentName
          && ! HasPrefix destinationBranch.Name opts.ReleasePrefix then
        { calls := [Call.GetCloneURL owner.UUID repository.Name "https",
            Call.NewClient (workerClientOptions w repository url),
            Call.GetCascadeOptions owner.UUID repository.Name],
          panicked := false }
      else
        { calls := [Call.GetCloneURL owner.UUID repository.Name "https",
            Call.NewClient (workerClientOptions w repository url),
            Call.GetCascadeOptions owner.UUID repository.Name,
            Call.CascadeMerge
              (w.newClient (workerClientOptions w repository url)).1
              destinationBranch.Name opts]
            ++ (workerAfterMerge (w.cascadeMerge
              (w.newClient (workerClientOptions w repository url)).1
              destinationBranch.Name opts)).calls,
          panicked := (workerAfterMerge (w.cascadeMerge
              (w.newClient (workerClientOptions w repository url)).1
              destinationBranch.Name opts)).panicked } := by
  unfold processEvent
  simp only [hR, hP, hS, hD, hSB, hDB, hO, hU, hC, workerClientOptions]

/-- C11 (counterexample): with the options `devel` / `release/`, a pull request
merged into "develop" is dropped after the options lookup, without a
`CascadeMerge` call, although "develop" is not the development branch "devel":
the worker tests whether the destination starts with the development name. -/
theorem worker_drops_destination_that_extends_development_name :
    "develop" ≠ scenarioOptions.DevelopmentName ∧
    conflictCollaborators.getCascadeOptions "owner-1" "winterfell" = .ok scenarioOptions ∧
    processEvent conflictCollaborators (mergedInto "develop") =
      { calls := [Call.GetCloneURL "owner-1" "winterfell" "https",
          Call.NewClient scenarioClientOptions,
          Call.GetCascadeOptions "owner-1" "winterfell"],
        panicked := false } := by
  refine ⟨by decide, rfl, by decide⟩

/-- C11 (amended): for every event whose lookups succeed, with cascade options
`opts`, the worker drops the event after the options lookup, without invoking
`CascadeMerge` or `CreatePullRequest`, exactly when the destination branch name
starts with `opts.DevelopmentName` and does not start with `opts.ReleasePrefix`;
every other destination, in particular every destination that starts with the
release prefix, proceeds to `CascadeMerge`. -/
theorem worker_drops_on_development_name_start (w : Collaborators) (e : PullRequestEvent)
    (repository : Repository) (pullRequest : PullRequest) (source destination : PullRequestRef)
    (sourceBranch destinationBranch : PullRequestBranch) (owner : Owner) (url : String)
    (opts : CascadeOptions)
    (hR : e.Repository = some repository) (hP : e.PullRequest = some pullRequest)
    (hS : pullRequest.Source = some source) (hD : pullRequest.Destination = some destination)
    (hSB : source.Branch = some sourceBranch) (hDB : destination.Branch = some destinationBranch)
    (hO : repository.Owner = some owner)
    (hU : w.getCloneURL owner.UUID repository.Name "https" = .ok url)
    (hC : w.getCascadeOptions owner.UUID repository.Name = .ok opts) :
    ((HasPrefix destinationBranch.Name opts.DevelopmentName = true ∧
        HasPrefix destinationBranch.Name opts.ReleasePrefix = false) →
      processEvent w e =
        { calls := [Call.GetCloneURL owner.UUID repository.Name "https",
            Call.NewClient (workerClientOptions w repository url),
            Call.GetCascadeOptions owner.UUID repository.Name],
          panicked := false }) ∧
    (¬ (HasPrefix destinationBranch.Name opts.DevelopmentName = true ∧
        HasPrefix destinationBranch.Name opts.ReleasePrefix = false) →
      Call.CascadeMerge
          (w.newClient (workerClientOptions w repository url)).1
          destinationBranch.Name opts ∈ (processEvent w e).calls) ∧
    (HasPrefix destinationBranch.Name opts.ReleasePrefix = true →
      Call.CascadeMerge
          (w.newClient (workerClientOptions w repository url)).1
          destinationBranch.Name opts ∈ (processEvent w e).calls) := by
  have h := processEvent_of_options w e repository pullRequest source destination sourceBranch
    destinationBranch owner url opts hR hP hS hD hSB hDB hO hU hC
  have hkeep : ¬ (HasPrefix destinationBranch.Name opts.DevelopmentName = true ∧
        HasPrefix destinationBranch.Name opts.ReleasePrefix = false) →
      Call.CascadeMerge
          (w.newClient (workerClientOptions w repository url)).1
          destinationBranch.Name opts ∈ (processEvent w e).calls := by
    intro hn
    have hc : ¬ ((HasPrefix destinationBranch.Name opts.DevelopmentName
          && ! HasPrefix destinationBranch.Name opts.ReleasePrefix) = true) := by
      simpa using hn
    rw [h, if_neg hc]
    simp
  refine ⟨?_, hkeep, ?_⟩
  · intro hdrop
    have hc : (HasPrefix destinationBranch.Name opts.DevelopmentName
          && ! HasPrefix destinationBranch.Name opts.ReleasePrefix) = true := by
      simp [hdrop.1, hdrop.2]
    rw [h, if_pos hc]
  · intro hrel
    apply hkeep
    intro hdrop
    rw [hdrop.2] at hrel
    exact Bool.false_ne_true hrel

theorem worker_drops_on_development_name_start_witness :
    processEvent conflictCollaborators (mergedInto "devel") =
      { calls := [Call.GetCloneURL "owner-1" "winterfell" "https",
          Call.NewClient scenarioClientOptions,
          Call.GetCascadeOptions "owner-1" "winterfell"],
        panicked := false } ∧
    Call.CascadeMerge (some scenarioClientOptions) "hotfix/7" scenarioOptions
      ∈ (processEvent conflictCollaborators (mergedInto "hotfix/7")).calls ∧
    Call.CascadeMerge (some scenarioClientOptions) "release/2" scenarioOptions
      ∈ (processEvent conflictCollaborators (mergedInto "release/2")).calls :=
  ⟨(worker_drops_on_development_name_start conflictCollaborators (mergedInto "devel")
      _ _ _ _ _ _ _ _ _ rfl rfl rfl rfl rfl rfl rfl rfl rfl).1 ⟨by decide, by decide⟩,
   (worker_drops_on_development_name_start conflictCollaborators (mergedInto "hotfix/7")
      _ _ _ _ _ _ _ _ _ rfl rfl rfl rfl rfl rfl rfl rfl rfl).2.1 (by decide),
   (worker_drops_on_development_name_start conflictCollaborators (mergedInto "release/2")
      _ _ _ _ _ _ _ _ _ rfl rfl rfl rfl rfl rfl rfl rfl rfl).2.2 (by decide)⟩

theorem worker_cons_of_not_panicked (w : Collaborators) (e : PullRequestEvent)
    (queue : List (Collaborators × PullRequestEvent)) (h : (processEvent w e).panicked = false) :
    worker ((w, e) :: queue) =
      { calls := (processEvent w e).calls ++ (worker queue).calls,
        panicked := (worker queue).panicked } := by
  simp [worker, h]

/-- C12: when the clone-URL lookup of an event was called (with `owner`, `repo`
and `protocol`) and it, or the cascade-options lookup for the same repository,
returns an error, then no `CascadeMerge` and no `CreatePullRequest` call is made
for the event, the processing does not panic, and the worker goes on with the
rest of the queue: its calls are those of this event followed by those of the
events queued behind it. -/
theorem worker_abandons_event_on_lookup_error (w : Collaborators) (e : PullRequestEvent)
    (owner repo protocol : String) (queue : List (Collaborators × PullRequestEvent))
    (hcall : Call.GetCloneURL owner repo protocol ∈ (processEvent w e).calls)
    (herr : (∃ err, w.getCloneURL owner repo protocol = .error err) ∨
      (∃ err, w.getCascadeOptions owner repo = .error err)) :
    (∀ call ∈ (processEvent w e).calls,
      (∀ cl b o, call ≠ Call.CascadeMerge cl b o) ∧
      (∀ t d src tgt, call ≠ Call.CreatePullRequest t d src tgt)) ∧
    (processEvent w e).panicked = false ∧
    worker ((w, e) :: queue) =
      { calls := (processEvent w e).calls ++ (worker queue).calls,
        panicked := (worker queue).panicked } := by
  have key : (∀ call ∈ (processEvent w e).calls,
      (∀ cl b o, call ≠ Call.CascadeMerge cl b o) ∧
      (∀ t d src tgt, call ≠ Call.CreatePullRequest t d src tgt)) ∧
      (processEvent w e).panicked = false := by
    revert hcall
    unfold processEvent
    cases hR : e.Repository with
    | none => simp
    | some repository =>
      try dsimp only
      cases hP : e.PullRequest with
      | none => simp
      | some pullRequest =>
        try dsimp only
        cases hS : pullRequest.Source with
        | none => simp
        | some source =>
          try dsimp only
          cases hD : pullRequest.Destination with
          | none => simp
          | some destination =>
            try dsimp only
            cases hSB : source.Branch with
            | none => simp
            | some sourceBranch =>
              try dsimp only
              cases hDB : destination.Branch with
              | none => simp
              | some destinationBranch =>
                try dsimp only
                cases hO : repository.Owner with
                | none => simp
                | some owner1 =>
                  try dsimp only
                  cases hU : w.getCloneURL owner1.UUID repository.Name "https" with
                  | error err => simp
                  | ok url =>
                    try dsimp only
                    cases hC : w.getCascadeOptions owner1.UUID repository.Name with
                    | error err => simp
                    | ok opts =>
                      try dsimp only
                      intro hcall
                      have hargs : owner = owner1.UUID ∧ repo = repository.Name
                          ∧ protocol = "https" := by
                        split at hcall
                        · simpa using hcall
                        · have hafter : ∀ st,
                              Call.GetCloneURL owner repo protocol ∉ (workerAfterMerge st).calls := by
                            intro st
                            rw [workerAfterMerge_calls]
                            cases st with
                            | none => simp
                            | some st => simp only []; split <;> simp
                          simpa [hafter] using hcall
                      obtain ⟨h1, h2, h3⟩ := hargs
                      subst h1 h2 h3
                      rcases herr with ⟨err, he⟩ | ⟨err, he⟩
                      · rw [hU] at he; cases he
                      · rw [hC] at he; cases he
  exact ⟨key.1, key.2, worker_cons_of_not_panicked w e queue key.2⟩

theorem worker_abandons_event_on_lookup_error_witness :
    (∀ call ∈ (processEvent noCloneURLCollaborators (mergedInto "release/2")).calls,
      (∀ cl b o, call ≠ Call.CascadeMerge cl b o) ∧
      (∀ t d src tgt, call ≠ Call.CreatePullRequest t d src tgt)) ∧
    (processEvent noCloneURLCollaborators (mergedInto "release/2")).panicked = false ∧
    worker [(noCloneURLCollaborators, mergedInto "release/2"),
        (conflictCollaborators, mergedInto "release/2")] =
      { calls := (processEvent noCloneURLCollaborators (mergedInto "release/2")).calls
          ++ (worker [(conflictCollaborators, mergedInto "release/2")]).calls,
        panicked := (worker [(conflictCollaborators, mergedInto "release/2")]).panicked } :=
  worker_abandons_event_on_lookup_error noCloneURLCollaborators (mergedInto "release/2")
    "owner-1" "winterfell" "https" [(conflictCollaborators, mergedInto "release/2")]
    (by decide) (Or.inl ⟨"404", rfl⟩)

/-! ## C13 and C14 -/

/-- C13: the status that `CheckToken` wrapped around `Handle` answers is 403
when the configured token differs from the `token` query parameter, whatever
the body; otherwise 400 when the body fails to decode or leaves no pull
request; otherwise 422 when the state of the pull request is not "MERGED";
otherwise 201 when the queue has room; otherwise 429. -/
theorem handler_status_in_order (token : String) (channel : Channel) (request : Request) :
    (CheckToken token Handle channel request).1 =
      if token ≠ request.token then 403
      else if request.decodeErr ≠ none ∨ request.event.PullRequest = none then 400
      else if request.event.PullRequest.map PullRequest.State ≠ some "MERGED" then 422
      else if channel.queue.length < channel.capacity then 201
      else 429 := by
  unfold CheckToken Handle
  by_cases ht : token = request.token
  · cases hd : request.decodeErr with
    | some err => simp [ht, StatusBadRequest]
    | none =>
      cases hp : request.event.PullRequest with
      | none => simp [ht, StatusBadRequest]
      | some pullRequest =>
        by_cases hs : pullRequest.State = "MERGED"
        · by_cases hq : channel.queue.length < channel.capacity
          · simp [ht, hs, hq, Merged, StatusCreated]
          · simp [ht, hs, hq, Merged, StatusTooManyRequests]
        · simp [ht, hs, Merged, StatusUnprocessableEntity]
  · simp [ht, StatusForbidden]

/-- C14: a request changes the queue only when it is answered 201, and then the
decoded event is appended at the back (the capacity stays); answered 403, 400,
422 or 429, the channel is exactly as before; and no other status is answered. -/
theorem handler_queue_frame (token : String) (channel : Channel) (request : Request) :
    ((CheckToken token Handle channel request).1 = 201 →
      (CheckToken token Handle channel request).2 =
        { capacity := channel.capacity, queue := channel.queue ++ [request.event] } ∧
      channel.queue.length < channel.capacity) ∧
    ((CheckToken token Handle channel request).1 ≠ 201 →
      (CheckToken token Handle channel request).2 = channel) ∧
    ((CheckToken token Handle channel request).1 = 403 ∨
      (CheckToken token Handle channel request).1 = 400 ∨
      (CheckToken token Handle channel request).1 = 422 ∨
      (CheckToken token Handle channel request).1 = 201 ∨
      (CheckToken token Handle channel request).1 = 429) := by
  unfold CheckToken Handle
  by_cases ht : token = request.token
  · cases hd : request.decodeErr with
    | some err => simp [ht, StatusBadRequest]
    | none =>
      cases hp : request.event.PullRequest with
      | none => simp [ht, StatusBadRequest]
      | some pullRequest =>
        by_cases hs : pullRequest.State = "MERGED"
        · by_cases hq : channel.queue.length < channel.capacity
          · simp [ht, hs, hq, Merged, StatusCreated]
          · simp [ht, hs, hq, Merged, StatusTooManyRequests]
        · simp [ht, hs, Merged, StatusUnprocessableEntity]
  · simp [ht, StatusForbidden]

theorem handler_queue_frame_witness :
    (CheckToken "secret" Handle mainChannel
        { token := "secret", decodeErr := none, event := mergedInto "release/2" }).2 =
      { capacity := 100, queue := [mergedInto "release/2"] } ∧
    (CheckToken "secret" Handle { capacity := 1, queue := [mergedInto "release/3"] }
        { token := "secret", decodeErr := none, event := mergedInto "release/2" }).2 =
      { capacity := 1, queue := [mergedInto "release/3"] } :=
  ⟨((handler_queue_frame "secret" mainChannel
      { token := "secret", decodeErr := none, event := mergedInto "release/2" }).1
      (by decide)).1,
   (handler_queue_frame "secret" { capacity := 1, queue := [mergedInto "release/3"] }
      { token := "secret", decodeErr := none, event := mergedInto "release/2" }).2.1
      (by decide)⟩

/-! ## C15 -/

theorem urlProtocols_some (link : Link) (protocols : List String) :
    Repository.urlProtocols (some link) protocols =
      some (if linkMatches protocols link then some link.Href else none) := by
  induction protocols with
  | nil => rfl
  | cons p ps ih =>
    unfold Repository.urlProtocols
    by_cases h : (p.length == 0 || p == link.Name) = true
    · simp only [h, if_true]
      simp [linkMatches, List.any_cons, h]
    · simp only [h]
      rw [ih]
      have h2 : (p.length == 0 || p == link.Name) = false := by simpa using h
      simp only [linkMatches, List.any_cons, h2, Bool.false_or, Bool.false_eq_true, if_false]

theorem urlLinks_of_no_match (protocols : List String) (links : List Link)
    (h : ∀ x ∈ links, linkMatches protocols x = false) :
    Repository.urlLinks protocols (links.map some) = some ("", some "no matching clone link") := by
  induction links with
  | nil => rfl
  | cons x xs ih =>
    simp only [List.map_cons, Repository.urlLinks, urlProtocols_some, h x (by simp)]
    exact ih (fun y hy => h y (by simp [hy]))

theorem urlLinks_of_first_match (protocols : List String) (pre : List Link) (link : Link)
    (post : List (Option Link)) (hpre : ∀ x ∈ pre, linkMatches protocols x = false)
    (hlink : linkMatches protocols link = true) :
    Repository.urlLinks protocols (pre.map some ++ some link :: post) = some (link.Href, none) := by
  induction pre with
  | nil =>
    simp only [List.map_nil, List.nil_append, Repository.urlLinks, urlProtocols_some, hlink,
      if_true]
  | cons x xs ih =>
    simp only [List.map_cons, List.cons_append, Repository.urlLinks, urlProtocols_some,
      hpre x (by simp)]
    exact ih (fun y hy => hpre y (by simp [hy]))

/-- C15 (counterexample): with an empty, non-nil clone list and the empty
protocol given, `URL("")` fails with "no matching clone link", although the
list is not nil and an empty protocol is given; and with a nil entry in the
clone list, `URL("https")` panics on the nil dereference instead of returning. -/
theorem URL_fails_on_empty_clone_list :
    (repositoryWithClone (some [])).Links.Clone ≠ none ∧
    (repositoryWithClone (some [])).URL [""] = some ("", some "no matching clone link") ∧
    (repositoryWithClone (some [none, some { Name := "https", Href := "h" }])).URL ["https"]
      = none := by
  decide

/-- C15 (amended): `URL(protocols...)` fails with an empty string when
`r.Links.Clone` is nil, and, on a clone list without nil entry, when no clone
link matches, a link matching when its name equals a given protocol or when a
given protocol is the empty string (so an empty list, and an empty argument
list, always fail); otherwise it returns, without error, the `Href` of the first
clone link in link order that matches, whatever follows that link. -/
theorem URL_returns_first_matching_link (r : Repository) (protocols : List String) :
    (r.Links.Clone = none → r.URL protocols = some ("", some "missing clone link")) ∧
    (∀ links : List Link, r.Links.Clone = some (links.map some) →
      (∀ x ∈ links, linkMatches protocols x = false) →
      r.URL protocols = some ("", some "no matching clone link")) ∧
    (∀ (pre : List Link) (link : Link) (post : List (Option Link)),
      r.Links.Clone = some (pre.map some ++ some link :: post) →
      (∀ x ∈ pre, linkMatches protocols x = false) → linkMatches protocols link = true →
      r.URL protocols = some (link.Href, none)) := by
  refine ⟨?_, ?_, ?_⟩
  · intro h
    simp [Repository.URL, h]
  · intro links h hno
    simp only [Repository.URL, h]
    exact urlLinks_of_no_match protocols links hno
  · intro pre link post h hpre hlink
    simp only [Repository.URL, h]
    exact urlLinks_of_first_match protocols pre link post hpre hlink

theorem URL_returns_first_matching_link_witness :
    (repositoryWithClone none).URL ["https"] = some ("", some "missing clone link") ∧
    (repositoryWithClone (some [some { Name := "file", Href := "/tmp/git/winterfell.git" }])).URL
      ["https"] = some ("", some "no matching clone link") ∧
    (repositoryWithClone (some [some { Name := "file", Href := "/tmp/git/winterfell.git" },
        some { Name := "https", Href := "https://git.com/winterfell.git" },
        some { Name := "https", Href := "https://mirror.com/winterfell.git" }])).URL
      ["ssh", "https"] = some ("https://git.com/winterfell.git", none) :=
  ⟨(URL_returns_first_matching_link (repositoryWithClone none) ["https"]).1 rfl,
   (URL_returns_first_matching_link
      (repositoryWithClone (some [some { Name := "file", Href := "/tmp/git/winterfell.git" }]))
      ["https"]).2.1 [{ Name := "file", Href := "/tmp/git/winterfell.git" }] rfl (by decide),
   (URL_returns_first_matching_link
      (repositoryWithClone (some [some { Name := "file", Href := "/tmp/git/winterfell.git" },
        some { Name := "https", Href := "https://git.com/winterfell.git" },
        some { Name := "https", Href := "https://mirror.com/winterfell.git" }]))
      ["ssh", "https"]).2.2 [{ Name := "file", Href := "/tmp/git/winterfell.git" }]
      { Name := "https", Href := "https://git.com/winterfell.git" }
      [some { Name := "https", Href := "https://mirror.com/winterfell.git" }]
      rfl (by decide) (by decide)⟩

/-! ## C16 -/

theorem AppendSemVer_Current (c : Cascade) (b : String) : (c.AppendSemVer b).Current = c.Current := by
  unfold Cascade.AppendSemVer
  split
  · rfl
  · simp only []
    split <;> rfl

theorem AppendSemVer_length_ge (c : Cascade) (b : String) :
    c.Branches.length ≤ (c.AppendSemVer b).Branches.length := by
  rcases AppendSemVer_perm_or_same c b with h | ⟨hp, _, _⟩
  · rw [h]
  · rw [hp.length_eq]
    simp

theorem Next_keeps_cursor_valid (c : Cascade) (hlen : (c.Branches.length : Int) ≤ maxInt)
    (h0 : 0 ≤ c.Current) (h1 : c.Current < c.Branches.length) :
    ∃ r c1, c.Next = some (r, c1) ∧ c1.Branches = c.Branches ∧
      (c1.Current = c.Current ∨ c1.Current = c.Current + 1) ∧
      0 ≤ c1.Current ∧ c1.Current < c1.Branches.length := by
  by_cases h : c.Current + 1 < c.Branches.length
  · obtain ⟨b, _, hn⟩ := Next_in_range c hlen h0 h
    exact ⟨b, _, hn, rfl, Or.inr rfl, by simp only []; omega, by simp only []; omega⟩
  · have hw : wrapInt (c.Current + 1) = c.Current + 1 := by
      apply wrapInt_of_inRange
      · omega
      · unfold maxInt at hlen
        omega
    have hg : ¬ ((c.Branches.length : Int) > wrapInt (c.Current + 1)) := by
      rw [hw]; omega
    exact ⟨"", c, by simp [Cascade.Next, hg], rfl, Or.inl rfl, h0, h1⟩

/-- C16 (counterexample): on the cascade `["release/2", "release/3"]` with the
cursor on index 1, `Slice("release/3")` leaves `["release/3"]` and the cursor
still 1, no longer an index of the list; and with the cursor on index 0,
`Slice` of a name that does not occur leaves the empty list. -/
theorem Slice_leaves_cursor_out_of_range :
    (0 : Int) ≤ (Cascade.mk ["release/2", "release/3"] 1).Current ∧
    (Cascade.mk ["release/2", "release/3"] 1).Current
      < (Cascade.mk ["release/2", "release/3"] 1).Branches.length ∧
    (Cascade.mk ["release/2", "release/3"] 1).Slice "release/3"
      = some (Cascade.mk ["release/3"] 1) ∧
    ¬ ((Cascade.mk ["release/3"] 1).Current < (Cascade.mk ["release/3"] 1).Branches.length) ∧
    (Cascade.mk ["release/2", "release/3"] 0).Slice "devel" = some (Cascade.mk [] 0) := by
  decide

/-- C16 (amended): on a cascade with `0 <= Current < len(Branches)`, after any
one of `Next()`, `Append(b)` or `AppendSemVer(b)` `Current` is still a valid
index into `Branches`; `Slice(s)` leaves `Current` as it is and shortens the
list, so that `Current` stays a valid index when it is 0 and `s` occurs in
`Branches`; only `Next` changes `Current`, by exactly one when it advances. -/
theorem cursor_stays_valid (c : Cascade) (b s : String)
    (hlen : (c.Branches.length : Int) ≤ maxInt)
    (h0 : 0 ≤ c.Current) (h1 : c.Current < c.Branches.length) :
    (∃ r c1, c.Next = some (r, c1) ∧ c1.Branches = c.Branches ∧
      (c1.Current = c.Current ∨ c1.Current = c.Current + 1) ∧
      0 ≤ c1.Current ∧ c1.Current < c1.Branches.length) ∧
    ((c.Append b).Current = c.Current ∧ c.Current < (c.Append b).Branches.length) ∧
    ((c.AppendSemVer b).Current = c.Current ∧
      c.Current < (c.AppendSemVer b).Branches.length) ∧
    (∃ c1, c.Slice s = some c1 ∧ c1.Current = c.Current ∧
      c1.Branches.length ≤ c.Branches.length ∧
      (c.Current = 0 → s ∈ c.Branches → c1.Current < c1.Branches.length)) := by
  refine ⟨Next_keeps_cursor_valid c hlen h0 h1, ?_, ?_, ?_⟩
  · by_cases hb : b ∈ c.Branches
    · rw [Append_of_mem c b hb]; exact ⟨rfl, h1⟩
    · rw [Append_of_not_mem c b hb]
      refine ⟨rfl, ?_⟩
      simp only [List.length_append, List.length_singleton]
      push_cast
      omega
  · refine ⟨AppendSemVer_Current c b, ?_⟩
    have := AppendSemVer_length_ge c b
    omega
  · refine ⟨_, Slice_eq_dropWhile c s, rfl, ?_, ?_⟩
    · exact (List.dropWhile_sublist _).length_le
    · intro hc hs
      simp only [hc]
      obtain ⟨pre, post, hsplit, hpre⟩ : ∃ pre post, c.Branches = pre ++ s :: post ∧ s ∉ pre := by
        generalize c.Branches = l at hs
        induction l with
        | nil => simp at hs
        | cons x xs ih =>
          by_cases hx : x = s
          · exact ⟨[], xs, by simp [hx], by simp⟩
          · have hxs : s ∈ xs := by
              rcases List.mem_cons.mp hs with h | h
              · exact absurd h.symm hx
              · exact h
            obtain ⟨pre, post, h1, h2⟩ := ih hxs
            refine ⟨x :: pre, post, by simp [h1], ?_⟩
            simp only [List.mem_cons, not_or]
            exact ⟨fun e => hx e.symm, h2⟩
      rw [hsplit, dropWhile_ne_append s pre post hpre]
      simp

theorem cursor_stays_valid_witness :
    (∃ r c1, (Cascade.mk ["release/2", "release/3"] 0).Next = some (r, c1) ∧
      c1.Branches = (Cascade.mk ["release/2", "release/3"] 0).Branches ∧
      (c1.Current = (Cascade.mk ["release/2", "release/3"] 0).Current ∨
        c1.Current = (Cascade.mk ["release/2", "release/3"] 0).Current + 1) ∧
      0 ≤ c1.Current ∧ c1.Current < c1.Branches.length) ∧
    (∃ c1, (Cascade.mk ["release/2", "release/3"] 0).Slice "release/3" = some c1 ∧
      c1.Current = (Cascade.mk ["release/2", "release/3"] 0).Current ∧
      c1.Branches.length ≤ (Cascade.mk ["release/2", "release/3"] 0).Branches.length ∧
      ((Cascade.mk ["release/2", "release/3"] 0).Current = 0 →
        "release/3" ∈ (Cascade.mk ["release/2", "release/3"] 0).Branches →
        c1.Current < c1.Branches.length)) :=
  ⟨(cursor_stays_valid (Cascade.mk ["release/2", "release/3"] 0) "devel" "release/3"
      (by decide) (by decide) (by decide)).1,
   (cursor_stays_valid (Cascade.mk ["release/2", "release/3"] 0) "devel" "release/3"
      (by decide) (by decide) (by decide)).2.2.2⟩

/-! ## C17 -/

theorem insertLeft_sublist {α : Type} (less : α → α → Bool) (z : α) (acc : List α) :
    List.Sublist acc (insertLeft less z acc) := by
  induction acc with
  | nil => exact List.nil_sublist _
  | cons p ps ih =>
    unfold insertLeft
    split
    · exact List.Sublist.cons₂ p ih
    · exact List.Sublist.cons z (List.Sublist.refl _)

theorem insertLeft_after {α : Type} (less : α → α → Bool) (z x : α) (acc : List α)
    (hx : x ∈ acc) (hzx : less z x = false) : List.Sublist [z, x] (insertLeft less z acc) := by
  induction acc with
  | nil => simp at hx
  | cons p ps ih =>
    unfold insertLeft
    by_cases hzp : less z p = true
    · rw [if_pos hzp]
      have hne : x ≠ p := by
        intro e
        rw [e, hzp] at hzx
        exact Bool.noConfusion hzx
      have hxps : x ∈ ps := by
        rcases List.mem_cons.mp hx with h | h
        · exact absurd h hne
        · exact h
      exact List.Sublist.cons p (ih hxps)
    · rw [if_neg hzp]
      exact List.Sublist.cons₂ z (List.singleton_sublist.mpr hx)

theorem foldl_insertLeft_stable {α : Type} (less : α → α → Bool) (x y : α)
    (hyx : less y x = false) :
    ∀ (l acc : List α),
      (List.Sublist [y, x] acc ∨ (x ∈ acc ∧ y ∈ l) ∨ List.Sublist [x, y] l) →
      List.Sublist [y, x] (l.foldl (fun sorted z => insertLeft less z sorted) acc) := by
  intro l
  induction l with
  | nil =>
    intro acc h
    rcases h with h | ⟨_, h⟩ | h
    · exact h
    · simp at h
    · simp at h
  | cons z zs ih =>
    intro acc h
    simp only [List.foldl_cons]
    apply ih
    rcases h with h | ⟨hx, hy⟩ | h
    · exact Or.inl (h.trans (insertLeft_sublist less z acc))
    · by_cases hyz : y = z
      · subst hyz
        exact Or.inl (insertLeft_after less y x acc hx hyx)
      · have hyzs : y ∈ zs := by
          rcases List.mem_cons.mp hy with h | h
          · exact absurd h hyz
          · exact h
        exact Or.inr (Or.inl ⟨(insertLeft_mem less z acc x).mpr (Or.inr hx), hyzs⟩)
    · cases h with
      | cons _ h2 => exact Or.inr (Or.inr h2)
      | cons₂ _ h2 =>
        exact Or.inr (Or.inl ⟨(insertLeft_mem less x acc x).mpr (Or.inl rfl),
          List.singleton_sublist.mp h2⟩)

theorem sortSort_stable {α : Type} (less : α → α → Bool) (x y : α) (l : List α)
    (hyx : less y x = false) (h : List.Sublist [x, y] l) :
    List.Sublist [x, y] (sortSort less l) := by
  unfold sortSort
  have h2 := foldl_insertLeft_stable less x y hyx l [] (Or.inr (Or.inr h))
  have h3 := h2.reverse
  simpa using h3

/-- C17 (counterexample): the version of the new name "release/1.0.0.0" equals
that of both entries of `["release/1.0.0", "release/1.0.0-alpha"]`, yet
`AppendSemVer` exchanges the two (1.0.0-alpha is less than 1.0.0); and the
version of the new name "release/0" equals that of the only entry of
`["release/0.0.0"]`, a cascade `AppendSemVer` builds, yet "release/0" is not
placed after it: it is not added at all. -/
theorem AppendSemVer_reorders_or_omits_equal_versions :
    (extractSemVersion "release/1.0.0.0").Equal (extractSemVersion "release/1.0.0") = true ∧
    (extractSemVersion "release/1.0.0.0").Equal (extractSemVersion "release/1.0.0-alpha") = true ∧
    ((Cascade.mk ["release/1.0.0", "release/1.0.0-alpha"] 0).AppendSemVer
        "release/1.0.0.0").Branches
      = ["release/1.0.0-alpha", "release/1.0.0", "release/1.0.0.0"] ∧
    (Cascade.mk [] 0).AppendSemVer "release/0.0.0" = Cascade.mk ["release/0.0.0"] 0 ∧
    (extractSemVersion "release/0").Equal (extractSemVersion "release/0.0.0") = true ∧
    (Cascade.mk ["release/0.0.0"] 0).AppendSemVer "release/0" = Cascade.mk ["release/0.0.0"] 0 := by
  decide

/-- C17 (amended): on a cascade of fewer than 12 branches, which `sort.Sort`
sorts by insertion, for a new name `b` that `AppendSemVer` adds (not present,
original text of its version not "0"): every two existing branches `x` before
`y` (written `[x, y] <+ Branches`) of which `y` is not less than `x`, in
particular two of equal version, are still in that order afterwards; and `b`
stands after every existing branch that it is not less than, in particular
after all those of a version equal to its own. -/
theorem AppendSemVer_stable_on_short_cascade (c : Cascade) (b : String) (hb : b ∉ c.Branches)
    (h0 : (extractSemVersion b).Original ≠ "0") (_hshort : c.Branches.length < 12) :
    (∀ x y : String, List.Sublist [x, y] c.Branches → BySemVersion.Less y x = false →
      List.Sublist [x, y] (c.AppendSemVer b).Branches) ∧
    (∀ x ∈ c.Branches, BySemVersion.Less b x = false →
      List.Sublist [x, b] (c.AppendSemVer b).Branches) ∧
    (∀ x y : String, (extractSemVersion y).Equal (extractSemVersion x) = true →
      BySemVersion.Less y x = false) := by
  have heq : (c.AppendSemVer b).Branches = sortSort BySemVersion.Less (c.Branches ++ [b]) := by
    rw [AppendSemVer_of_not_mem c b hb, if_pos h0]
  refine ⟨?_, ?_, ?_⟩
  · intro x y hxy hless
    rw [heq]
    exact sortSort_stable _ x y _ hless (hxy.trans (List.sublist_append_left _ _))
  · intro x hx hless
    rw [heq]
    apply sortSort_stable _ x b _ hless
    have h1 : List.Sublist [x] c.Branches := List.singleton_sublist.mpr hx
    exact List.Sublist.append h1 (List.Sublist.refl [b])
  · intro x y heq2
    unfold Version.Equal at heq2
    unfold BySemVersion.Less Version.LessThan
    have : (extractSemVersion y).Compare (extractSemVersion x) = 0 := by simpa using heq2
    simp [this]

theorem AppendSemVer_stable_on_short_cascade_witness :
    List.Sublist ["release/1.0", "release/v1.0.0"]
      ((Cascade.mk ["release/1.0", "release/v1.0.0", "devel"] 0).AppendSemVer
        "release/1.0.0").Branches ∧
    List.Sublist ["release/v1.0.0", "release/1.0.0"]
      ((Cascade.mk ["release/1.0", "release/v1.0.0", "devel"] 0).AppendSemVer
        "release/1.0.0").Branches :=
  ⟨(AppendSemVer_stable_on_short_cascade
      (Cascade.mk ["release/1.0", "release/v1.0.0", "devel"] 0) "release/1.0.0"
      (by decide) (by decide) (by decide)).1 "release/1.0" "release/v1.0.0"
      (by decide) (by decide),
   (AppendSemVer_stable_on_short_cascade
      (Cascade.mk ["release/1.0", "release/v1.0.0", "devel"] 0) "release/1.0.0"
      (by decide) (by decide) (by decide)).2.1 "release/v1.0.0" (by decide) (by decide)⟩

/-! ## C18 and C19 -/

/-- C18 (what the code does): the body `{"pullrequest": {"state": "MERGED"}}`
decodes without error to an event with a merged pull request and no
repository, source or destination; the handler answers 201 and queues it, and
the worker, whatever its collaborators answer, panics on it before any call. -/
theorem handler_accepts_event_the_worker_panics_on :
    CheckToken "secret" Handle mainChannel
        { token := "secret", decodeErr := none, event := bareMergedEvent }
      = (201, { capacity := 100, queue := [bareMergedEvent] }) ∧
    bareMergedEvent.Repository = none ∧
    (∀ w : Collaborators, processEvent w bareMergedEvent = { calls := [], panicked := true }) ∧
    (∀ (w : Collaborators) (queue : List (Collaborators × PullRequestEvent)),
      worker ((w, bareMergedEvent) :: queue) = { calls := [], panicked := true }) := by
  refine ⟨by decide, rfl, fun w => rfl, fun w queue => ?_⟩
  have h : processEvent w bareMergedEvent = { calls := [], panicked := true } := rfl
  simp [worker, h]

/-- C19 (what the code does): when `NewClient` returns an error (and a nil
client), the worker only logs it: it goes on to call `GetCascadeOptions` and
then `CascadeMerge` on the nil client. -/
theorem worker_continues_after_NewClient_error :
    noClientCollaborators.newClient scenarioClientOptions = (none, some "cannot clone") ∧
    (processEvent noClientCollaborators (mergedInto "release/2")).calls =
      [Call.GetCloneURL "owner-1" "winterfell" "https",
        Call.NewClient scenarioClientOptions,
        Call.GetCascadeOptions "owner-1" "winterfell",
        Call.CascadeMerge none "release/2" scenarioOptions] := by
  refine ⟨rfl, by decide⟩

end BitbucketCascade
